import Mathlib

/-!
Verification of the jupyterlab-controller specification against a shallow
embedding of the repository's Python sources.

The embedding covers:
* `src/jupyterlabcontroller/models/v1/domain/tag.py` — the tag parser
  (`PartialTag.parse_tag`, `TAGTYPE_REGEXPS`, `extract_metadata`,
  `trailing_parts_to_semver_build_component`, `compare`),
* `src/jupyterlabcontroller/services/prepuller.py` and
  `src/jupyterlabcontroller/storage/prepuller.py` — `_update_prepulled_images`
  and `filter_node_images_to_desired_menu`,
* `src/jupyterlabcontroller/services/lab.py` — `create_lab`,
  `create_user_namespace`, `delete_lab_environment`, together with the user
  map (a Python dict from username to `UserData`, modelled as an ordered
  association list with dict update semantics).

Strings are modelled as Lean `String`/`List Char`; Python's `re` digit class
`\d` is modelled as ASCII digits (image tags are ASCII), and `$` as end of
string.  Machine integers do not occur (Python ints are unbounded; all counts
are `Nat`).  Cluster I/O is modelled by a list of responses consumed one per
cluster call, and each operation returns the calls it issued.
-/

namespace JC

/-! ## Tag data model (models/v1/domain/tag.py) -/

/-- `TagType`, listed in the order of the Python `Enum` (the order matters to
the menu code). `aliasTag` renders Python's `ALIAS`. -/
inductive TagType where
  | release
  | weekly
  | daily
  | release_candidate
  | experimental
  | aliasTag
  | unknown
deriving DecidableEq, Repr

/-- The `semver.VersionInfo` fields used by the repository: the numeric
triple, the optional prerelease string and the optional build string. -/
structure VersionInfo where
  major : Nat
  minor : Nat
  patch : Nat
  prerelease : Option String
  build : Option String
deriving DecidableEq, Repr

/-- The fields of `PartialTag` (tag.py lines 124–165). -/
structure PartialTag where
  tag : String
  image_type : TagType
  display_name : String
  semantic_version : Option VersionInfo
  cycle : Option Nat
deriving DecidableEq, Repr

/-! ## The regular-expression grammar (TAGTYPE_REGEXPS)

Each regex of `TAGTYPE_REGEXPS` is a concatenation of literal pieces and
greedy digit groups `\d+`; a digit group is always followed by a
non-digit literal (or the end), so the greedy match is deterministic, and
the only alternation, `(?P<ctag>c|csal)`, is resolved deterministically
because `c` must be followed by a digit while `csal` puts an `s` there.
The matchers below mirror the regexes under that determinisation. -/

/-- Greedy `\d+`-style prefix: the leading run of ASCII digits and the rest. -/
def takeDigits : List Char → List Char × List Char
  | [] => ([], [])
  | c :: cs =>
    if c.isDigit then
      let p := takeDigits cs
      (c :: p.1, p.2)
    else ([], c :: cs)

/-- A nonempty digit group `(?P<g>\d+)`: its text and the remainder. -/
def digits1 (cs : List Char) : Option (List Char × List Char) :=
  let p := takeDigits cs
  if p.1 = [] then none else some p

/-- Consume a literal prefix. -/
def dropLit : List Char → List Char → Option (List Char)
  | [], cs => some cs
  | _ :: _, [] => none
  | l :: ls, c :: cs => if c = l then dropLit ls cs else none

/-- The named groups of the cycle suffix `_(?P<ctag>c|csal)(?P<cycle>\d+)\.(?P<cbuild>\d+)`. -/
structure CycleG where
  ctag : List Char
  cyc : List Char
  cbuild : List Char
deriving DecidableEq, Repr

/-- Match the cycle suffix at the front of `cs`. The regex alternation
`c|csal` tries `c` first; it commits iff a digit follows, exactly as the
backtracking regex resolves. -/
def matchCycle (cs : List Char) : Option (CycleG × List Char) := do
  let cs0 ← dropLit ['_', 'c'] cs
  match digits1 cs0 with
  | some (cyc, cs1) => do
    let cs2 ← dropLit ['.'] cs1
    let (cb, cs3) ← digits1 cs2
    return (⟨['c'], cyc, cb⟩, cs3)
  | none => do
    let cs1 ← dropLit ['s', 'a', 'l'] cs0
    let (cyc, cs2) ← digits1 cs1
    let cs3 ← dropLit ['.'] cs2
    let (cb, cs4) ← digits1 cs3
    return (⟨['c', 's', 'a', 'l'], cyc, cb⟩, cs4)

/-- For one base grammar (release, rc, weekly, daily), `TAGTYPE_REGEXPS`
tries, in order: base+cycle+rest, base+cycle, base+rest, base.  Given the
remainder after the base, return the matched `(cycle?, rest?)` groups of the
first variant that matches the whole remainder, or `none` when none does
(`rest` is everything after a `_`, possibly empty). -/
def matchSuffix (cs : List Char) : Option (Option CycleG × Option (List Char)) :=
  let restOnly : Option (Option CycleG × Option (List Char)) :=
    match cs with
    | [] => some (none, none)
    | '_' :: rest => some (none, some rest)
    | _ => none
  match matchCycle cs with
  | some (cyc, rem) =>
    match rem with
    | [] => some (some cyc, none)
    | '_' :: rest => some (some cyc, some rest)
    | _ => restOnly
  | none => restOnly

/-- `r(?P<major>\d+)_(?P<minor>\d+)_(?P<patch>\d+)` and the remainder. -/
def releaseBase (cs : List Char) : Option ((List Char × List Char × List Char) × List Char) := do
  let cs ← dropLit ['r'] cs
  let (maj, cs) ← digits1 cs
  let cs ← dropLit ['_'] cs
  let (mnr, cs) ← digits1 cs
  let cs ← dropLit ['_'] cs
  let (pat, cs) ← digits1 cs
  return ((maj, mnr, pat), cs)

/-- The release grammar with any of the four suffix variants. -/
def relM (cs : List Char) :
    Option ((List Char × List Char × List Char) × Option CycleG × Option (List Char)) := do
  let (g, rem) ← releaseBase cs
  let (cyc, rest) ← matchSuffix rem
  return (g, cyc, rest)

/-- The release-candidate grammar (release base + `_rc(?P<pre>\d+)`) with any
of the four suffix variants. -/
def rcM (cs : List Char) :
    Option ((List Char × List Char × List Char) × List Char × Option CycleG × Option (List Char)) := do
  let (g, rem) ← releaseBase cs
  let rem ← dropLit ['_', 'r', 'c'] rem
  let (pre, rem) ← digits1 rem
  let (cyc, rest) ← matchSuffix rem
  return (g, pre, cyc, rest)

/-- The obsolete two-digit release `r(?P<major>\d\d)(?P<minor>\d)$`. -/
def legacyM (cs : List Char) : Option (List Char × List Char) :=
  match cs with
  | ['r', a, b, c] =>
    if a.isDigit ∧ b.isDigit ∧ c.isDigit then some ([a, b], [c]) else none
  | _ => none

/-- `w_(?P<year>\d+)_(?P<week>\d+)` with any of the four suffix variants. -/
def weeklyM (cs : List Char) :
    Option ((List Char × List Char) × Option CycleG × Option (List Char)) := do
  let cs ← dropLit ['w', '_'] cs
  let (year, cs) ← digits1 cs
  let cs ← dropLit ['_'] cs
  let (week, cs) ← digits1 cs
  let (cyc, rest) ← matchSuffix cs
  return ((year, week), cyc, rest)

/-- `d_(?P<year>\d+)_(?P<month>\d+)_(?P<day>\d+)` with any suffix variant. -/
def dailyM (cs : List Char) :
    Option ((List Char × List Char × List Char) × Option CycleG × Option (List Char)) := do
  let cs ← dropLit ['d', '_'] cs
  let (year, cs) ← digits1 cs
  let cs ← dropLit ['_'] cs
  let (month, cs) ← digits1 cs
  let cs ← dropLit ['_'] cs
  let (day, cs) ← digits1 cs
  let (cyc, rest) ← matchSuffix cs
  return ((year, month, day), cyc, rest)

/-- The result of running the ordered `TAGTYPE_REGEXPS` list on a tag. -/
inductive MatchResult where
  | rc (major minor patch pre : List Char) (cyc : Option CycleG) (rest : Option (List Char))
  | rel (major minor patch : List Char) (cyc : Option CycleG) (rest : Option (List Char))
  | legacy (major minor : List Char)
  | weekly (year week : List Char) (cyc : Option CycleG) (rest : Option (List Char))
  | daily (year month day : List Char) (cyc : Option CycleG) (rest : Option (List Char))
  | exp (rest : List Char)
  | noMatch
deriving DecidableEq, Repr

/-- Run the ordered pattern list of `TAGTYPE_REGEXPS` (tag.py lines 63–121):
release candidates before releases, the legacy release after the modern
releases, then weekly, daily and experimental. -/
def tryMatchAll (cs : List Char) : MatchResult :=
  match rcM cs with
  | some ((maj, mnr, pat), pre, cyc, rest) => .rc maj mnr pat pre cyc rest
  | none =>
    match relM cs with
    | some ((maj, mnr, pat), cyc, rest) => .rel maj mnr pat cyc rest
    | none =>
      match legacyM cs with
      | some (maj, mnr) => .legacy maj mnr
      | none =>
        match weeklyM cs with
        | some ((year, week), cyc, rest) => .weekly year week cyc rest
        | none =>
          match dailyM cs with
          | some ((year, month, day), cyc, rest) => .daily year month day cyc rest
          | none =>
            match dropLit ['e', 'x', 'p', '_'] cs with
            | some rest => .exp rest
            | none => .noMatch

/-! ## Metadata extraction (extract_metadata and helpers) -/

/-- Numeric value of a digit group (Python `int`). -/
def natOf (ds : List Char) : Nat :=
  ds.foldl (fun n c => 10 * n + (c.toNat - 48)) 0

/-- Python `str.title()` for ASCII text: an alphabetic character is
uppercased after a non-cased character and lowercased after a cased one. -/
def pyTitleAux : Bool → List Char → List Char
  | _, [] => []
  | prevCased, c :: cs =>
    if c.isAlpha then
      (if prevCased then c.toLower else c.toUpper) :: pyTitleAux true cs
    else c :: pyTitleAux false cs

/-- `PartialTag.prettify_tag`: underscores to spaces, then title case. -/
def prettify_tag (s : String) : String :=
  ⟨pyTitleAux false (s.data.map fun c => if c = '_' then ' ' else c)⟩

/-- The Python enum member name of a tag type (`tagtype.name`). -/
def tagTypeName : TagType → String
  | .release => "RELEASE"
  | .weekly => "WEEKLY"
  | .daily => "DAILY"
  | .release_candidate => "RELEASE_CANDIDATE"
  | .experimental => "EXPERIMENTAL"
  | .aliasTag => "ALIAS"
  | .unknown => "UNKNOWN"

/-- `trailing_parts_to_semver_build_component`: fold the cycle groups and the
free-form rest into one string, turn underscores into dots, drop every
character outside the regex class `[\w|\.]` (word characters, the pipe that
the Python character class includes literally, and dots), and return `None`
for an empty result. -/
def buildComponent (cyc : Option CycleG) (rest : Option (List Char)) : Option (List Char) :=
  let rest' : Option (List Char) :=
    match cyc with
    | some g =>
      match rest with
      | some r =>
        if r ≠ [] then some (g.ctag ++ g.cyc ++ '.' :: g.cbuild ++ '_' :: r)
        else some (g.ctag ++ g.cyc ++ '.' :: g.cbuild)
      | none => some (g.ctag ++ g.cyc ++ '.' :: g.cbuild)
    | none => rest
  match rest' with
  | none => none
  | some r =>
    if r = [] then none
    else
      let r := r.map fun c => if c = '_' then '.' else c
      let r := r.filter fun c => c.isAlphanum ∨ c = '_' ∨ c = '|' ∨ c = '.'
      if r = [] then none else some r

/-- The ` (SAL Cycle C, Build B)` display suffix, when a cycle was matched. -/
def salSuffix : Option CycleG → String
  | some g => " (SAL Cycle " ++ ⟨g.cyc⟩ ++ ", Build " ++ ⟨g.cbuild⟩ ++ ")"
  | none => ""

/-- The ` [rest]` display suffix, when a nonempty rest was matched. -/
def restSuffix : Option (List Char) → String
  | some r => if r ≠ [] then " [" ++ (⟨r⟩ : String) ++ "]" else ""
  | none => ""

/-- The shared tail of `extract_metadata` for every type with a semantic
version: assemble the display name from the prettified type name, the
type-specific `restname`, the cycle suffix and the rest suffix, and build the
`VersionInfo` and cycle number. -/
def mkStd (t : String) (ty : TagType) (restname : String)
    (maj mnr pat : Nat) (pre : Option String)
    (cyc : Option CycleG) (rest : Option (List Char)) : PartialTag :=
  { tag := t
    image_type := ty
    display_name :=
      prettify_tag (tagTypeName ty) ++ " " ++ restname ++ salSuffix cyc ++ restSuffix rest
    semantic_version :=
      some ⟨maj, mnr, pat, pre, (buildComponent cyc rest).map fun r => (⟨r⟩ : String)⟩
    cycle := cyc.map fun g => natOf g.cyc }

/-- `restname` for release and release-candidate tags:
`r{major}.{minor}.{patch}` from the integer values, with `-rcN` appended for
a release candidate. -/
def relRestname (maj mnr pat : Nat) (pre : Option String) : String :=
  "r" ++ Nat.repr maj ++ "." ++ Nat.repr mnr ++ "." ++ Nat.repr pat ++
    (match pre with
     | some p => "-" ++ p
     | none => "")

/-- One pass of `parse_tag` on the (already defaulted) tag `t`: run the
ordered regex list and apply `extract_metadata` to the match.  The
`expDisplay` parameter is the display name `extract_metadata` computes for
an experimental match by recursively parsing the remainder (`temp_ptag`);
passing it as a parameter separates the single recursive call from the
otherwise non-recursive pass. -/
def parseTagStep (t : String) (expDisplay : List Char → String) : PartialTag :=
  match tryMatchAll t.data with
  | .rc maj mnr pat pre cyc rest =>
    mkStd t .release_candidate
      (relRestname (natOf maj) (natOf mnr) (natOf pat) (some ("rc" ++ (⟨pre⟩ : String))))
      (natOf maj) (natOf mnr) (natOf pat) (some ("rc" ++ (⟨pre⟩ : String))) cyc rest
  | .rel maj mnr pat cyc rest =>
    mkStd t .release
      (relRestname (natOf maj) (natOf mnr) (natOf pat) none)
      (natOf maj) (natOf mnr) (natOf pat) none cyc rest
  | .legacy maj mnr =>
    mkStd t .release
      (relRestname (natOf maj) (natOf mnr) 0 none)
      (natOf maj) (natOf mnr) 0 none none none
  | .weekly year week cyc rest =>
    mkStd t .weekly ((⟨year⟩ : String) ++ "_" ++ (⟨week⟩ : String))
      (natOf year) (natOf week) 0 none cyc rest
  | .daily year month day cyc rest =>
    mkStd t .daily
      ((⟨year⟩ : String) ++ "_" ++ (⟨month⟩ : String) ++ "_" ++ (⟨day⟩ : String))
      (natOf year) (natOf month) (natOf day) none cyc rest
  | .exp rest =>
    { tag := t
      image_type := .experimental
      display_name := expDisplay rest
      semantic_version := none
      cycle := none }
  | .noMatch => ⟨t, .unknown, t, none, none⟩

/-- `PartialTag.parse_tag` with explicit fuel.  The Python recursion (an
experimental tag recursively parses everything after `exp_`) consumes four
characters per level, so `length + 1` fuel always suffices; the fuel-0 value
is never reached from `parseTag` (see the fuel lemma further below). -/
def parseTagF : Nat → String → PartialTag
  | 0, tag => ⟨tag, .unknown, tag, none, none⟩
  | fuel + 1, tag =>
    parseTagStep (if tag = "" then "latest" else tag)
      (fun rest => "Experimental " ++ (parseTagF fuel (⟨rest⟩ : String)).display_name)

/-- `PartialTag.parse_tag` (tag.py lines 171–199). -/
def parseTag (tag : String) : PartialTag :=
  parseTagF (tag.length + 1) tag

/-! ## Tag comparison (PartialTag.compare and semver.VersionInfo.compare)

`PartialTag.compare` raises `IncomparableImageTypesError` on a type mismatch
(modelled as `none`), compares semantic versions when both tags carry one,
and otherwise compares the raw tag strings the way Python compares `str`
(lexicographically by code point). -/

/-- Python's `cmp` on two naturals, as the `Int` -1/0/1. -/
def cmpNat (a b : Nat) : Int :=
  if a < b then -1 else if b < a then 1 else 0

/-- Python string comparison (lexicographic by code point), as -1/0/1. -/
def cmpChars : List Char → List Char → Int
  | [], [] => 0
  | [], _ :: _ => -1
  | _ :: _, [] => 1
  | a :: as, b :: bs =>
    if a.toNat < b.toNat then -1
    else if b.toNat < a.toNat then 1
    else cmpChars as bs

/-- A prerelease identifier after `_nat_cmp`'s `convert`: an integer when the
text is all digits (and nonempty), otherwise the text itself. -/
inductive PreId where
  | num (n : Nat)
  | str (s : List Char)
deriving DecidableEq, Repr

/-- `convert` inside `semver._nat_cmp`. -/
def convertId (s : List Char) : PreId :=
  if s ≠ [] ∧ s.all Char.isDigit then .num (natOf s) else .str s

/-- `cmp_prerelease_tag` inside `semver._nat_cmp`. -/
def cmpPreId : PreId → PreId → Int
  | .num a, .num b => cmpNat a b
  | .num _, .str _ => -1
  | .str _, .num _ => 1
  | .str a, .str b => cmpChars a b

/-- Python `"x.y".split(".")` (keeps empty pieces; `"".split(".") = [""]`). -/
def splitDot (s : List Char) : List (List Char) :=
  go [] s
where
  go (acc : List Char) : List Char → List (List Char)
    | [] => [acc.reverse]
    | c :: cs => if c = '.' then acc.reverse :: go [] cs else go (c :: acc) cs

/-- The zip loop of `semver._nat_cmp`: the first nonzero identifier
comparison wins; when the zipped identifiers are exhausted the *string*
lengths break the tie. -/
def natCmpGo (la lb : Nat) : List PreId → List PreId → Int
  | x :: xs, y :: ys =>
    let c := cmpPreId x y
    if c ≠ 0 then c else natCmpGo la lb xs ys
  | _, _ => cmpNat la lb

/-- `semver._nat_cmp` on two prerelease strings. -/
def natCmp (a b : List Char) : Int :=
  natCmpGo a.length b.length ((splitDot a).map convertId) ((splitDot b).map convertId)

/-- The text `semver` compares for an optional prerelease (`None` → `""`). -/
def preOf (o : Option String) : List Char :=
  (o.getD "").data

/-- The prerelease block of `semver.VersionInfo.compare`: `0` when
`_nat_cmp` ties; otherwise an absent prerelease is the greater version. -/
def preBlock (p q : Option String) : Int :=
  let rccmp := natCmp (preOf p) (preOf q)
  if rccmp = 0 then 0
  else if preOf p = [] then 1
  else if preOf q = [] then -1
  else rccmp

/-- Sequence two comparison results lexicographically. -/
def cmp2 (x y : Int) : Int :=
  if x ≠ 0 then x else y

/-- `semver.VersionInfo.compare`: the numeric triple, then the prerelease
block; build metadata is ignored. -/
def svCompare (v w : VersionInfo) : Int :=
  cmp2 (cmpNat v.major w.major)
    (cmp2 (cmpNat v.minor w.minor)
      (cmp2 (cmpNat v.patch w.patch) (preBlock v.prerelease w.prerelease)))

/-- `PartialTag.compare` (tag.py lines 345–366): `none` models the raised
`IncomparableImageTypesError`. -/
def PartialTag.compare (a b : PartialTag) : Option Int :=
  if a.image_type ≠ b.image_type then none
  else
    some
      (match a.semantic_version, b.semantic_version with
       | some v, some w => svCompare v w
       | _, _ =>
         if a.tag = b.tag then 0
         else if cmpChars a.tag.data b.tag.data = -1 then -1
         else 1)

/-- The shape of every `parse_tag` result: the parser never yields an alias
type; release, weekly and daily tags always carry a semantic version with no
prerelease; a release candidate carries one whose prerelease is `rc`
followed by a nonempty digit string; experimental and unknown tags carry
none.  (Within one type, either every parsed tag has a semantic version or
none does — the fact `compare`'s total-order property rests on.) -/
def parsedShape (p : PartialTag) : Prop :=
  p.image_type ≠ TagType.aliasTag ∧
  ((p.image_type = TagType.release ∨ p.image_type = TagType.weekly ∨
      p.image_type = TagType.daily) →
    ∃ v, p.semantic_version = some v ∧ v.prerelease = none) ∧
  (p.image_type = TagType.release_candidate →
    ∃ v d, p.semantic_version = some v ∧ v.prerelease = some ("rc" ++ d) ∧
      d.data ≠ [] ∧ d.data.all Char.isDigit = true) ∧
  ((p.image_type = TagType.experimental ∨ p.image_type = TagType.unknown) →
    p.semantic_version = none)

/-! ## Prepuller image and node model

`NodeTagImage` (models/v1/domain/prepuller.py, not shipped in this snapshot)
is carried through the prepuller code as a record of an image; the fields
below are the ones `_update_prepulled_images` and
`filter_node_images_to_desired_menu` read or write (`tags`, `size`,
`known_alias_tags` and `tagobjs` are carried around unchanged and are
omitted).  `Node` is the name plus the eligibility flag. -/

structure NodeTagImage where
  path : String
  name : String
  digest : String
  tag : String
  nodes : List String
  image_type : TagType
  prepulled : Bool
deriving DecidableEq, Repr

structure NodeM where
  name : String
  eligible : Bool
deriving DecidableEq, Repr

/-- `PrepullerManager._update_prepulled_images` (services/prepuller.py lines
209–225): for each image independently, the prepulled flag is set to whether
no eligible node name is missing from the image's node set (`se - sn`
empty). -/
def updatePrepulledImages (nodes : List NodeM) (image_list : List NodeTagImage) :
    List NodeTagImage :=
  let se := (nodes.filter fun x => x.eligible).map fun x => x.name
  image_list.map fun i => { i with prepulled := se.all fun n => i.nodes.contains n }

/-- `PrepullerClient._update_prepulled_images` (storage/prepuller.py lines
73–87), translated exactly: `prepulled = True` is assigned once *before* the
loop, the loop only ever lowers it (so the value carries over from earlier
images), and the subset test is `sn.difference(se)` — image nodes minus the
passed node list. -/
def storageUpdatePrepulledImages (eligible : List NodeM) (image_list : List NodeTagImage) :
    List NodeTagImage :=
  let se := eligible.map fun x => x.name
  go se true image_list
where
  go (se : List String) : Bool → List NodeTagImage → List NodeTagImage
    | _, [] => []
    | prepulled, i :: rest =>
      let prepulled :=
        if (i.nodes.filter fun n => ¬ se.contains n) ≠ [] then false else prepulled
      { i with prepulled := prepulled } :: go se prepulled rest

/-- The prepuller configuration fields the menu code reads. -/
structure PrepullerCfg where
  recommendedTag : String
  numReleases : Nat
  numWeeklies : Nat
  numDailies : Nat
deriving DecidableEq, Repr

/-- The per-type cap table `tag_count` of `filter_node_images_to_desired_menu`
(types with no configured cap get 0). -/
def capOf (cfg : PrepullerCfg) : TagType → Nat
  | .release => cfg.numReleases
  | .weekly => cfg.numWeeklies
  | .daily => cfg.numDailies
  | _ => 0

/-- A Python dict from tag to image, modelled as its insertion-ordered
association list: assignment to an existing key replaces the value in place,
a new key is appended. -/
def Menu := List (String × NodeTagImage)

/-- `menu_images[k] = v` on an insertion-ordered dict. -/
def dictInsert (m : List (String × NodeTagImage)) (k : String) (v : NodeTagImage) :
    List (String × NodeTagImage) :=
  if m.any fun e => e.1 = k then
    m.map fun e => if e.1 = k then (k, v) else e
  else m ++ [(k, v)]

/-- The state of the second pass: the per-type running counts and the menu. -/
def menuStep (cfg : PrepullerCfg) (st : (TagType → Nat) × List (String × NodeTagImage))
    (img : NodeTagImage) : (TagType → Nat) × List (String × NodeTagImage) :=
  let rc : TagType → Nat := fun t => if t = img.image_type then st.1 t + 1 else st.1 t
  if rc img.image_type > capOf cfg img.image_type then (rc, st.2)
  else if img.tag ≠ "" then (rc, dictInsert st.2 img.tag img)
  else (rc, st.2)

/-- The first pass of `filter_node_images_to_desired_menu`: every image
whose (truthy) tag equals the configured recommended tag is written under
that key (so the last such image wins the single `recommendedTag` slot). -/
def recommendedPass (cfg : PrepullerCfg) (all_images : List NodeTagImage) :
    List (String × NodeTagImage) :=
  all_images.foldl
    (fun m img =>
      if img.tag ≠ "" ∧ img.tag = cfg.recommendedTag then dictInsert m img.tag img else m)
    []

/-- `PrepullerManager.filter_node_images_to_desired_menu` (services/
prepuller.py lines 132–158).  First pass: the recommended-tag slot.  Second
pass: for every image, its type's running count is incremented; when the
count does not exceed the cap and the tag is truthy the image is written
under its tag. -/
def filterMenu (cfg : PrepullerCfg) (all_images : List NodeTagImage) :
    List (String × NodeTagImage) :=
  (all_images.foldl (menuStep cfg) (fun _ => 0, recommendedPass cfg all_images)).2

/-- The number of entries of a menu (or of a menu prefix) whose image has
type `T` and does not carry the recommended tag. -/
def menuCountT (cfg : PrepullerCfg) (T : TagType) (m : List (String × NodeTagImage)) : Nat :=
  m.countP fun e => decide (e.2.image_type = T ∧ e.2.tag ≠ cfg.recommendedTag)

/-! ## Lab lifecycle model (services/lab.py, models/v1/lab.py, models/v1/event.py)

The user map is the Python dict from username to `UserData`, modelled as an
insertion-ordered association list.  Cluster I/O is a list of `K8sResp`
responses consumed one per cluster call; every operation also returns the
list of cluster calls it issued, so "no cluster call was made" is a
statement of the model. -/

inductive LabStatus where
  | starting
  | running
  | terminating
  | failed
deriving DecidableEq, Repr

inductive PodState where
  | present
  | missing
deriving DecidableEq, Repr

inductive EventType where
  | complete
  | error
  | failed
  | info
  | progress
deriving DecidableEq, Repr

/-- An entry of a user's event queue (models/v1/event.py). -/
structure EventM where
  data : String
  event : EventType
deriving DecidableEq, Repr

/-- The identity fields of `UserInfo` that `UserData` copies. -/
structure UserInfoM where
  username : String
  name : String
  uid : Nat
  gid : Nat
deriving DecidableEq, Repr

/-- A User Lab Record (`UserData`, models/v1/lab.py lines 186–209). -/
structure UserDataM where
  username : String
  name : String
  uid : Nat
  gid : Nat
  status : LabStatus
  pod : PodState
  events : List EventM
deriving DecidableEq, Repr

/-- `UserData.new_from_user_resources` (models/v1/lab.py lines 211–230): a
fresh record starts `starting`/`missing` with an empty event queue.
`create_lab`'s `UserData.new_from_user_lab_quota` comes from a module not in
this snapshot; it builds the same fresh record (resource quantities are not
read by the operations modelled here and are omitted). -/
def newUserData (user : UserInfoM) : UserDataM :=
  ⟨user.username, user.name, user.uid, user.gid, .starting, .missing, []⟩

/-- The user map: an insertion-ordered Python dict. -/
def UserMap := List (String × UserDataM)

def umLookup (m : List (String × UserDataM)) (k : String) : Option UserDataM :=
  (m.find? fun e => e.1 = k).map fun e => e.2

/-- `username in user_map`. -/
def umContains (m : List (String × UserDataM)) (k : String) : Bool :=
  m.any fun e => e.1 = k

/-- `user_map[k] = v`. -/
def umSet (m : List (String × UserDataM)) (k : String) (v : UserDataM) :
    List (String × UserDataM) :=
  if m.any fun e => e.1 = k then
    m.map fun e => if e.1 = k then (k, v) else e
  else m ++ [(k, v)]

/-- `del user_map[k]`. -/
def umDel (m : List (String × UserDataM)) (k : String) : List (String × UserDataM) :=
  m.filter fun e => e.1 ≠ k

/-- The cluster calls the lab manager can issue. -/
inductive K8sCall where
  | createNamespace (ns : String)
  | deleteNamespace (ns : String)
  | createSecret (name ns : String)
  | createConfigMap (name ns : String)
  | createNetworkPolicy (name ns : String)
  | createQuota (name ns : String)
  | createPod (name ns : String)
deriving DecidableEq, Repr

/-- The response the cluster gives to one call: success, an HTTP 409
conflict, or any other error. -/
inductive K8sResp where
  | ok
  | conflict
  | err
deriving DecidableEq, Repr

/-- How `create_user_namespace` can leave the namespace step. `noResponse` is
the model artifact for running out of the finite response list (the Python
coroutine would still be running, awaiting its next cluster response). -/
inductive NsOutcome where
  | created
  | collision
  | raisedOther
  | deleteFailed
  | noResponse
deriving DecidableEq, Repr

/-- `LabManager.create_user_namespace` (services/lab.py lines 71–101),
translated exactly: `ns_retries` is a *local* initialized to 0 on every
invocation, incremented once when the create conflicts, checked against
`ns_max_retries = 5`, and the method then recurses into a fresh invocation —
so the check compares 1 against 5 on every level.  Returns the outcome, the
unconsumed responses and the cluster calls issued. -/
def createUserNamespace (ns : String) :
    List K8sResp → NsOutcome × List K8sResp × List K8sCall
  | [] => (.noResponse, [], [.createNamespace ns])
  | r :: rest =>
    match r with
    | .ok => (.created, rest, [.createNamespace ns])
    | .err => (.raisedOther, rest, [.createNamespace ns])
    | .conflict =>
      -- delete_namespace(ns) is awaited next and consumes a response
      match rest with
      | [] => (.noResponse, [], [.createNamespace ns, .deleteNamespace ns])
      | d :: rest2 =>
        match d with
        | .ok =>
          let ns_retries : Nat := 0 + 1
          if ns_retries > 5 then
            (.collision, rest2, [.createNamespace ns, .deleteNamespace ns])
          else
            let p := createUserNamespace ns rest2
            (p.1, p.2.1, .createNamespace ns :: .deleteNamespace ns :: p.2.2)
        | _ => (.deleteFailed, rest2, [.createNamespace ns, .deleteNamespace ns])

/-- A cluster that answers every namespace creation with HTTP 409 and every
namespace deletion with success, `n` times over. -/
def conflictStream (n : Nat) : List K8sResp :=
  (List.replicate n [K8sResp.conflict, K8sResp.ok]).flatten

/-- The user map never holds two records under one username: its key list
has no duplicates.  This is the dict invariant the operations must keep. -/
def umKeysNodup (m : List (String × UserDataM)) : Prop :=
  (m.map Prod.fst).Nodup

/-- How `create_lab` can end. -/
inductive CreateOutcome where
  | alreadyExists
  | success
  | nsCollision
  | nsRaised
  | nsDeleteFailed
  | podFailed
  | noResponse
deriving DecidableEq, Repr

/-- The five supporting-object calls of `create_user_lab_objects`
(services/lab.py lines 103–116): user secret, the two config maps, the
network policy and the quota. -/
def objectCalls (username ns : String) : List K8sCall :=
  [.createSecret ("nb-" ++ username) ns,
   .createConfigMap ("nb-" ++ username ++ "-nss") ns,
   .createConfigMap ("nb-" ++ username ++ "-env") ns,
   .createNetworkPolicy ("nb-" ++ username ++ "-env") ns,
   .createQuota ("nb-" ++ username) ns]

/-- `LabManager.create_lab` (services/lab.py lines 47–69).  If a record for
the user exists the method raises `RuntimeError("lab already exists …")` —
the spec's `AlreadyExists` — without touching the map or the cluster.
Otherwise it writes a fresh `starting`/`missing` record and runs the three
stages.  The five supporting objects are spawned on an `aiojobs` scheduler,
whose default swallows (logs) job exceptions, so that stage consumes five
responses and cannot raise; a pod-creation error propagates.  No path
updates the record's status or appends an event. -/
def createLab (user : UserInfoM) (ns : String) (m : List (String × UserDataM))
    (resps : List K8sResp) :
    CreateOutcome × List (String × UserDataM) × List K8sCall :=
  if umContains m user.username then (.alreadyExists, m, [])
  else
    let m := umSet m user.username (newUserData user)
    let p := createUserNamespace ns resps
    match p.1 with
    | .created =>
      let rest2 := p.2.1.drop 5
      match rest2 with
      | [] => (.noResponse, m, p.2.2 ++ objectCalls user.username ns)
      | r :: _ =>
        match r with
        | .ok =>
          (.success, m,
            p.2.2 ++ objectCalls user.username ns ++ [.createPod ("nb-" ++ user.username) ns])
        | _ =>
          (.podFailed, m,
            p.2.2 ++ objectCalls user.username ns ++ [.createPod ("nb-" ++ user.username) ns])
    | .collision => (.nsCollision, m, p.2.2)
    | .raisedOther => (.nsRaised, m, p.2.2)
    | .deleteFailed => (.nsDeleteFailed, m, p.2.2)
    | .noResponse => (.noResponse, m, p.2.2)

/-- How `delete_lab_environment` can end.  `keyErrorRaised` models the
`KeyError` that `user_map[username]` raises for an absent user (it is not
the spec's `NotFound` category and surfaces as an unhandled error). -/
inductive DeleteOutcome where
  | done
  | keyErrorRaised
  | deleteRaised
  | noResponse
deriving DecidableEq, Repr

/-- `LabManager.delete_lab_environment` (services/lab.py lines 240–255).
For a present user: clear the event queue, mark `terminating`, delete the
namespace (the code passes the *username* as the namespace name), and on
success drop the record; on a deletion error mark `failed` and re-raise.
For an absent user the very first statement raises `KeyError`. -/
def deleteLabEnvironment (m : List (String × UserDataM)) (username : String)
    (resps : List K8sResp) :
    DeleteOutcome × List (String × UserDataM) × List K8sCall :=
  match umLookup m username with
  | none => (.keyErrorRaised, m, [])
  | some ud =>
    let m := umSet m username { ud with events := [], status := .terminating }
    match resps with
    | [] => (.noResponse, m, [.deleteNamespace username])
    | r :: _ =>
      match r with
      | .ok => (.done, umDel m username, [.deleteNamespace username])
      | _ =>
        (.deleteRaised, umSet m username { ud with events := [], status := .failed },
          [.deleteNamespace username])

/-! ## Lemmas about the user map dict -/

theorem umSet_map_fst (m : List (String × UserDataM)) (k : String) (v : UserDataM) :
    (umSet m k v).map Prod.fst =
      if umContains m k then m.map Prod.fst else m.map Prod.fst ++ [k] := by
  by_cases hc : umContains m k
  · unfold umSet umContains at *
    rw [if_pos hc, if_pos hc, List.map_map]
    refine List.map_congr_left fun e _ => ?_
    by_cases h : e.1 = k <;> simp [h]
  · unfold umSet umContains at *
    rw [if_neg hc, if_neg hc]
    simp

theorem umContains_iff (m : List (String × UserDataM)) (k : String) :
    umContains m k = true ↔ k ∈ m.map Prod.fst := by
  unfold umContains
  rw [List.any_eq_true]
  constructor
  · rintro ⟨e, he, hk⟩
    have : e.1 = k := by simpa using hk
    exact this ▸ List.mem_map_of_mem Prod.fst he
  · intro hm
    rcases List.mem_map.mp hm with ⟨e, he, hk⟩
    exact ⟨e, he, by simp [hk]⟩

theorem umKeysNodup_umSet (m : List (String × UserDataM)) (k : String) (v : UserDataM)
    (h : umKeysNodup m) : umKeysNodup (umSet m k v) := by
  unfold umKeysNodup
  rw [umSet_map_fst]
  by_cases hc : umContains m k
  · rw [if_pos hc]; exact h
  · rw [if_neg hc]
    have hk : k ∉ m.map Prod.fst := fun hmem => hc ((umContains_iff m k).mpr hmem)
    refine List.Nodup.append h (List.nodup_singleton k) ?_
    simpa [List.disjoint_singleton] using hk

theorem umKeysNodup_umDel (m : List (String × UserDataM)) (k : String)
    (h : umKeysNodup m) : umKeysNodup (umDel m k) := by
  unfold umKeysNodup umDel
  exact h.sublist ((List.filter_sublist m).map Prod.fst)

theorem find?_map_replace (m : List (String × UserDataM)) (k : String) (v : UserDataM)
    (hc : (m.any fun e => decide (e.1 = k)) = true) :
    (m.map fun e => if e.1 = k then (k, v) else e).find? (fun e => decide (e.1 = k))
      = some (k, v) := by
  induction m with
  | nil => simp at hc
  | cons e rest ih =>
    by_cases h : e.1 = k
    · rw [List.map_cons, if_pos h, List.find?_cons_of_pos _ (by simp)]
    · rw [List.map_cons, if_neg h, List.find?_cons_of_neg _ (by simp [h])]
      refine ih ?_
      simp only [List.any_cons, Bool.or_eq_true] at hc
      rcases hc with h1 | h1
      · exact absurd (by simpa using h1) h
      · exact h1

theorem find?_append_new (m : List (String × UserDataM)) (k : String) (v : UserDataM)
    (hc : ¬ (m.any fun e => decide (e.1 = k)) = true) :
    (m ++ [(k, v)]).find? (fun e => decide (e.1 = k)) = some (k, v) := by
  induction m with
  | nil => simp
  | cons e rest ih =>
    simp only [List.any_cons, Bool.or_eq_true, not_or] at hc
    rw [List.cons_append, List.find?_cons_of_neg _ (by simpa using hc.1)]
    exact ih (by simpa using hc.2)

theorem umLookup_umSet_self (m : List (String × UserDataM)) (k : String) (v : UserDataM) :
    umLookup (umSet m k v) k = some v := by
  unfold umSet umLookup
  by_cases hc : (m.any fun e => decide (e.1 = k)) = true
  · rw [if_pos hc, find?_map_replace m k v hc]
    rfl
  · rw [if_neg hc, find?_append_new m k v hc]
    rfl

/-! ## Theorems for namespace creation and lab create/delete -/

theorem createLab_map_absent (user : UserInfoM) (ns : String)
    (m : List (String × UserDataM)) (resps : List K8sResp)
    (h : umContains m user.username = false) :
    (createLab user ns m resps).2.1 = umSet m user.username (newUserData user) := by
  unfold createLab
  rw [if_neg (by simp [h])]
  dsimp only
  split <;> (try split) <;> (try split) <;> rfl

theorem deleteLab_keys_nodup (m : List (String × UserDataM)) (u : String)
    (resps : List K8sResp) (h : umKeysNodup m) :
    umKeysNodup (deleteLabEnvironment m u resps).2.1 := by
  unfold deleteLabEnvironment
  cases hl : umLookup m u with
  | none => exact h
  | some ud =>
    dsimp only
    split
    · exact umKeysNodup_umSet _ _ _ h
    · split
      · exact umKeysNodup_umDel _ _ (umKeysNodup_umSet _ _ _ h)
      · exact umKeysNodup_umSet _ _ _ (umKeysNodup_umSet _ _ _ h)

theorem createUserNamespace_conflict_step (ns : String) (s : List K8sResp) :
    createUserNamespace ns (K8sResp.conflict :: K8sResp.ok :: s) =
      ((createUserNamespace ns s).1, (createUserNamespace ns s).2.1,
        K8sCall.createNamespace ns :: K8sCall.deleteNamespace ns ::
          (createUserNamespace ns s).2.2) := rfl

/-- C1: for every username the User Map holds at most one User Lab Record —
both create and delete preserve the uniqueness of usernames as dict keys —
and a create invoked while a record for the username exists fails with the
AlreadyExists error (`RuntimeError("lab already exists …")`), leaving the
map unchanged and issuing no cluster calls. -/
theorem lab_create_at_most_one_record (user : UserInfoM) (ns u' : String)
    (m : List (String × UserDataM)) (resps resps' : List K8sResp)
    (hn : umKeysNodup m) :
    umKeysNodup (createLab user ns m resps).2.1 ∧
    umKeysNodup (deleteLabEnvironment m u' resps').2.1 ∧
    (umContains m user.username = true →
      createLab user ns m resps = (CreateOutcome.alreadyExists, m, [])) := by
  refine ⟨?_, deleteLab_keys_nodup m u' resps' hn, ?_⟩
  · by_cases hc : umContains m user.username
    · unfold createLab
      rw [if_pos hc]
      exact hn
    · rw [createLab_map_absent user ns m resps (by simpa using hc)]
      exact umKeysNodup_umSet _ _ _ hn
  · intro hc
    unfold createLab
    rw [if_pos hc]

/-- Witness for C1: on the concrete one-record map for alice, a second
create for alice returns AlreadyExists with the map untouched and no calls. -/
theorem lab_create_at_most_one_record_witness :
    umKeysNodup [("alice", newUserData ⟨"alice", "Alice", 1000, 1000⟩)] ∧
    createLab ⟨"alice", "Alice", 1000, 1000⟩ "userns-alice"
        [("alice", newUserData ⟨"alice", "Alice", 1000, 1000⟩)] [] =
      (CreateOutcome.alreadyExists,
        [("alice", newUserData ⟨"alice", "Alice", 1000, 1000⟩)], []) :=
  ⟨by unfold umKeysNodup; decide,
    (lab_create_at_most_one_record ⟨"alice", "Alice", 1000, 1000⟩ "userns-alice" "bob"
        [("alice", newUserData ⟨"alice", "Alice", 1000, 1000⟩)] [] [] (by unfold umKeysNodup; decide)).2.2
      (by decide)⟩

/-- C2 (code bug): because `ns_retries` is re-initialized to 0 by every
recursive invocation of `create_user_namespace`, the bound check compares 1
against 5 forever: under `n` consecutive namespace-creation conflicts (each
followed by a successful delete) the method never fails with the
NamespaceCollision error — it issues `2n + 1` cluster calls, the last one
being yet another creation attempt, and is still retrying when the response
stream runs out.  In particular six conflicts do not terminate the
operation with the collision failure the claim describes. -/
theorem namespace_conflict_retries_forever (ns : String) (n : Nat) :
    (createUserNamespace ns (conflictStream n)).1 = NsOutcome.noResponse ∧
    (createUserNamespace ns (conflictStream n)).2.2.length = 2 * n + 1 := by
  induction n with
  | zero => exact ⟨rfl, rfl⟩
  | succ k ih =>
    rw [show conflictStream (k + 1) = K8sResp.conflict :: K8sResp.ok :: conflictStream k from
        by simp [conflictStream, List.replicate_succ],
      createUserNamespace_conflict_step]
    refine ⟨ih.1, ?_⟩
    simp only [List.length_cons, ih.2]
    omega

/-- C4 counterexample: a create for alice on the empty map in which every
cluster call succeeds ends in success, but the record still has status
`starting` — not `running` — and an empty event queue (no `complete` event
was appended). -/
theorem create_success_stays_starting_counterexample :
    createLab ⟨"alice", "Alice", 1000, 1000⟩ "userns-alice" []
        [K8sResp.ok, .ok, .ok, .ok, .ok, .ok, .ok] =
      (CreateOutcome.success,
        [("alice", ⟨"alice", "Alice", 1000, 1000, LabStatus.starting, PodState.missing, []⟩)],
        [K8sCall.createNamespace "userns-alice"] ++ objectCalls "alice" "userns-alice" ++
          [K8sCall.createPod "nb-alice" "userns-alice"]) ∧
    LabStatus.starting ≠ LabStatus.running := by
  exact ⟨by decide, by decide⟩

/-- C4 amended: for every create on a map that does not hold the user, the
freshly inserted record stays in the User Map with status `starting` and an
empty event queue whatever the outcome — on success no transition to
`running` happens and no `complete` event is appended, and on failure the
status is not set to `failed` either (the record does remain in the map). -/
theorem create_record_remains_starting (user : UserInfoM) (ns : String)
    (m : List (String × UserDataM)) (resps : List K8sResp)
    (h : umContains m user.username = false) :
    umLookup (createLab user ns m resps).2.1 user.username = some (newUserData user) ∧
    (newUserData user).status = LabStatus.starting ∧
    (newUserData user).events = [] := by
  refine ⟨?_, rfl, rfl⟩
  rw [createLab_map_absent user ns m resps h]
  exact umLookup_umSet_self ..

/-- Witness for C4's amended theorem at a concrete input. -/
theorem create_record_remains_starting_witness :
    umContains [] "alice" = false ∧
    umLookup (createLab ⟨"alice", "Alice", 1000, 1000⟩ "userns-alice" [] []).2.1 "alice"
      = some (newUserData ⟨"alice", "Alice", 1000, 1000⟩) :=
  ⟨by decide,
    (create_record_remains_starting ⟨"alice", "Alice", 1000, 1000⟩ "userns-alice" [] []
      (by decide)).1⟩

/-- C9 (code bug): a delete for a username with no record raises `KeyError`
on its first statement (`user_map[username].events = deque()`): the User Map
is unchanged and no cluster deletion is issued, but the outcome is the
raised KeyError — an unhandled error, not the NotFound category the spec
maps to 404. -/
theorem delete_absent_user_keyerror (m : List (String × UserDataM)) (u : String)
    (resps : List K8sResp) (h : umLookup m u = none) :
    deleteLabEnvironment m u resps = (DeleteOutcome.keyErrorRaised, m, []) := by
  unfold deleteLabEnvironment
  rw [h]

/-- Witness for C9 at the empty map. -/
theorem delete_absent_user_keyerror_witness :
    umLookup ([] : List (String × UserDataM)) "alice" = none ∧
    deleteLabEnvironment [] "alice" [K8sResp.ok] = (DeleteOutcome.keyErrorRaised, [], []) :=
  ⟨rfl, delete_absent_user_keyerror [] "alice" [K8sResp.ok] rfl⟩

/-! ## Theorems for the prepulled flag (C5) -/

theorem all_eligible_names (nodes : List NodeM) (l : List String) :
    (((nodes.filter fun x => x.eligible).map fun x => x.name).all fun n => l.contains n)
      = decide (∀ x ∈ nodes, x.eligible = true → x.name ∈ l) := by
  rw [Bool.eq_iff_iff]
  simp only [List.all_eq_true, List.mem_map, List.mem_filter, decide_eq_true_eq,
    List.elem_iff]
  constructor
  · intro h x hx he
    exact h x.name ⟨x, ⟨hx, he⟩, rfl⟩
  · rintro h n ⟨x, ⟨hx, he⟩, rfl⟩
    exact h x hx he

/-- C5: in `PrepullerManager._update_prepulled_images` (services copy) the
prepulled flag of the image at any position equals exactly "every eligible
node's name is in the image's node set", and — the position being arbitrary
amid arbitrary other images — does not depend on which images precede it.
The `PrepullerClient._update_prepulled_images` copy in storage/prepuller.py
violates both parts: at the concrete inputs below it (i) marks an image
prepulled although eligible node n2 is missing from its node set (the flag
was initialized once outside the loop and its subset test is inverted), and
(ii) gives the same image different flags depending on the image placed
before it. -/
theorem update_prepulled_flag (nodes : List NodeM) (preL postL : List NodeTagImage)
    (img : NodeTagImage) :
    (updatePrepulledImages nodes (preL ++ img :: postL))[preL.length]? =
      some { img with prepulled := decide (∀ x ∈ nodes, x.eligible = true → x.name ∈ img.nodes) } ∧
    storageUpdatePrepulledImages [⟨"n1", true⟩, ⟨"n2", true⟩]
        [⟨"p", "i", "d", "t", ["n1"], TagType.release, false⟩] =
      [⟨"p", "i", "d", "t", ["n1"], TagType.release, true⟩] ∧
    ¬ (∀ x ∈ [NodeM.mk "n1" true, NodeM.mk "n2" true],
        x.eligible = true → x.name ∈ ["n1"]) ∧
    storageUpdatePrepulledImages [⟨"n1", true⟩]
        [⟨"p", "i2", "d2", "t2", ["n2"], TagType.release, false⟩,
         ⟨"p", "i3", "d3", "t3", ["n1"], TagType.release, false⟩] =
      [⟨"p", "i2", "d2", "t2", ["n2"], TagType.release, false⟩,
       ⟨"p", "i3", "d3", "t3", ["n1"], TagType.release, false⟩] ∧
    storageUpdatePrepulledImages [⟨"n1", true⟩]
        [⟨"p", "i3", "d3", "t3", ["n1"], TagType.release, false⟩] =
      [⟨"p", "i3", "d3", "t3", ["n1"], TagType.release, true⟩] := by
  refine ⟨?_, by decide, by decide, by decide, by decide⟩
  unfold updatePrepulledImages
  dsimp only
  rw [List.map_append, List.map_cons, List.getElem?_append_right (by simp),
    all_eligible_names]
  simp

/-! ## Theorems for the tag parser on the S2 scenario tag (C3) -/

/-- C3 counterexample: parsing `r23_0_0_rc1_c0020.001_20230513` yields the
display name "Release Candidate r23.0.0-rc1 (SAL Cycle 0020, Build 001)
[20230513]" — `extract_metadata` prettifies the enum member name
`RELEASE_CANDIDATE` — not the "Release r23.0.0-rc1 …" the claim states. -/
theorem rc_tag_display_name_counterexample :
    (parseTag "r23_0_0_rc1_c0020.001_20230513").display_name =
      "Release Candidate r23.0.0-rc1 (SAL Cycle 0020, Build 001) [20230513]" ∧
    ("Release Candidate r23.0.0-rc1 (SAL Cycle 0020, Build 001) [20230513]" : String) ≠
      "Release r23.0.0-rc1 (SAL Cycle 0020, Build 001) [20230513]" :=
  ⟨by decide, by decide⟩

/-! ## Lemmas about the menu dict and the two menu passes (C6, C7) -/

theorem dictInsert_map_fst (m : List (String × NodeTagImage)) (k : String) (v : NodeTagImage) :
    (dictInsert m k v).map Prod.fst =
      if (m.any fun e => e.1 = k) = true then m.map Prod.fst else m.map Prod.fst ++ [k] := by
  by_cases hc : (m.any fun e => e.1 = k) = true
  · unfold dictInsert
    rw [if_pos hc, if_pos hc, List.map_map]
    refine List.map_congr_left fun e _ => ?_
    by_cases h : e.1 = k <;> simp [h]
  · unfold dictInsert
    rw [if_neg hc, if_neg hc]
    simp

theorem dictInsert_nodup (m : List (String × NodeTagImage)) (k : String) (v : NodeTagImage)
    (h : (m.map Prod.fst).Nodup) : ((dictInsert m k v).map Prod.fst).Nodup := by
  rw [dictInsert_map_fst]
  by_cases hc : (m.any fun e => e.1 = k) = true
  · rw [if_pos hc]; exact h
  · rw [if_neg hc]
    have hk : k ∉ m.map Prod.fst := by
      intro hmem
      rcases List.mem_map.mp hmem with ⟨e, he, hke⟩
      exact hc (List.any_eq_true.mpr ⟨e, he, by simp [hke]⟩)
    refine List.Nodup.append h (List.nodup_singleton k) ?_
    simpa [List.disjoint_singleton] using hk

theorem dictInsert_keytag (m : List (String × NodeTagImage)) (k : String) (v : NodeTagImage)
    (hm : ∀ e ∈ m, e.1 = e.2.tag) (hk : k = v.tag) :
    ∀ e ∈ dictInsert m k v, e.1 = e.2.tag := by
  unfold dictInsert
  split
  · intro e he
    rcases List.mem_map.mp he with ⟨e0, he0, rfl⟩
    by_cases h : e0.1 = k
    · simp [h, hk]
    · simpa [h] using hm e0 he0
  · intro e he
    rcases List.mem_append.mp he with h | h
    · exact hm e h
    · rcases List.mem_singleton.mp h with rfl
      exact hk

theorem countP_map_replace (p : String × NodeTagImage → Bool)
    (m : List (String × NodeTagImage)) (k : String) (v : NodeTagImage)
    (hnd : (m.map Prod.fst).Nodup) :
    (m.map fun e => if e.1 = k then (k, v) else e).countP p ≤
      m.countP p + (if p (k, v) = true then 1 else 0) := by
  induction m with
  | nil => simp
  | cons e rest ih =>
    simp only [List.map_cons, List.nodup_cons, List.mem_map] at hnd
    by_cases h : e.1 = k
    · have hrest : rest.map (fun e => if e.1 = k then (k, v) else e) = rest := by
        conv_rhs => rw [← List.map_id rest]
        refine List.map_congr_left fun e' he' => ?_
        have hne : e'.1 ≠ k := fun hk => hnd.1 ⟨e', he', by rw [hk, h]⟩
        simp [hne]
      rw [List.map_cons, show (if e.1 = k then (k, v) else e) = (k, v) from if_pos h, hrest,
        List.countP_cons, List.countP_cons]
      by_cases hq : p e = true
      · rw [hq]
        by_cases hp : p (k, v) = true
        · rw [hp]
          omega
        · rw [Bool.not_eq_true] at hp
          rw [hp]
          omega
      · rw [Bool.not_eq_true] at hq
        rw [hq]
        by_cases hp : p (k, v) = true
        · rw [hp]
          omega
        · rw [Bool.not_eq_true] at hp
          rw [hp]
          omega
    · rw [List.map_cons, show (if e.1 = k then (k, v) else e) = e from if_neg h,
        List.countP_cons, List.countP_cons]
      have hih := ih hnd.2
      by_cases hq : p e = true
      · rw [hq]
        omega
      · rw [Bool.not_eq_true] at hq
        rw [hq]
        omega

theorem menuCountT_dictInsert (cfg : PrepullerCfg) (T : TagType)
    (m : List (String × NodeTagImage)) (k : String) (v : NodeTagImage)
    (hnd : (m.map Prod.fst).Nodup) :
    menuCountT cfg T (dictInsert m k v) ≤
      menuCountT cfg T m +
        (if v.image_type = T ∧ v.tag ≠ cfg.recommendedTag then 1 else 0) := by
  unfold menuCountT dictInsert
  split
  · have := countP_map_replace
      (fun e => decide (e.2.image_type = T ∧ e.2.tag ≠ cfg.recommendedTag)) m k v hnd
    refine this.trans ?_
    by_cases hp : v.image_type = T ∧ v.tag ≠ cfg.recommendedTag <;> simp [hp]
  · rw [List.countP_append]
    by_cases hp : v.image_type = T ∧ v.tag ≠ cfg.recommendedTag <;> simp [hp]

theorem fold2_count_bound (cfg : PrepullerCfg) (imgs : List NodeTagImage) :
    ∀ (counts : TagType → Nat) (m : List (String × NodeTagImage)),
      (m.map Prod.fst).Nodup →
      (∀ T, menuCountT cfg T m ≤ min (counts T) (capOf cfg T)) →
      ((imgs.foldl (menuStep cfg) (counts, m)).2.map Prod.fst).Nodup ∧
      ∀ T, menuCountT cfg T (imgs.foldl (menuStep cfg) (counts, m)).2 ≤
        min (counts T + imgs.length) (capOf cfg T) := by
  induction imgs with
  | nil =>
    intro counts m h1 h2
    exact ⟨h1, fun T => (h2 T).trans (by simp)⟩
  | cons img rest ih =>
    intro counts m h1 h2
    rw [List.foldl_cons]
    unfold menuStep
    dsimp only
    set rc : TagType → Nat := fun t => if t = img.image_type then counts t + 1 else counts t
      with hrc
    have hrc_ge : ∀ T, counts T ≤ rc T := by
      intro T
      rw [hrc]
      dsimp only
      split <;> omega
    have hrc_le : ∀ T, rc T ≤ counts T + 1 := by
      intro T
      rw [hrc]
      dsimp only
      split <;> omega
    by_cases hskip : rc img.image_type > capOf cfg img.image_type
    · rw [if_pos hskip]
      have := ih rc m h1 fun T => (h2 T).trans (by have := hrc_ge T; omega)
      refine ⟨this.1, fun T => (this.2 T).trans ?_⟩
      have := hrc_le T
      simp only [List.length_cons]
      omega
    · rw [if_neg hskip]
      by_cases htag : img.tag ≠ ""
      · rw [if_pos htag]
        have hb : ∀ T, menuCountT cfg T (dictInsert m img.tag img) ≤ min (rc T) (capOf cfg T) := by
          intro T
          have hins := menuCountT_dictInsert cfg T m img.tag img h1
          have h2T := h2 T
          by_cases hT : T = img.image_type
          · have hrcT : rc T = counts T + 1 := by
              rw [hrc]
              dsimp only
              rw [if_pos hT]
            have hcap : rc img.image_type ≤ capOf cfg img.image_type := Nat.le_of_not_lt hskip
            rw [← hT] at hcap
            by_cases hp : img.image_type = T ∧ img.tag ≠ cfg.recommendedTag
            · rw [if_pos hp] at hins
              omega
            · rw [if_neg hp] at hins
              omega
          · have hrcT : rc T = counts T := by
              rw [hrc]
              dsimp only
              rw [if_neg hT]
            have hp : ¬ (img.image_type = T ∧ img.tag ≠ cfg.recommendedTag) := by
              intro hc
              exact hT hc.1.symm
            rw [if_neg hp] at hins
            omega
        have := ih rc (dictInsert m img.tag img) (dictInsert_nodup m img.tag img h1) hb
        refine ⟨this.1, fun T => (this.2 T).trans ?_⟩
        have := hrc_le T
        simp only [List.length_cons]
        omega
      · rw [if_neg htag]
        have := ih rc m h1 fun T => (h2 T).trans (by have := hrc_ge T; omega)
        refine ⟨this.1, fun T => (this.2 T).trans ?_⟩
        have := hrc_le T
        simp only [List.length_cons]
        omega

theorem dictInsert_ne_nil (m : List (String × NodeTagImage)) (k : String) (v : NodeTagImage) :
    dictInsert m k v ≠ [] := by
  unfold dictInsert
  split
  · rename_i hc
    rcases List.any_eq_true.mp hc with ⟨e, he, _⟩
    cases m with
    | nil => cases he
    | cons a l => simp
  · simp

theorem recommendedPass_shape (cfg : PrepullerCfg) (imgs : List NodeTagImage) :
    ∀ m₀, (m₀ = [] ∨ ∃ v, m₀ = [(cfg.recommendedTag, v)] ∧ v.tag = cfg.recommendedTag) →
      (imgs.foldl
        (fun m img =>
          if img.tag ≠ "" ∧ img.tag = cfg.recommendedTag then dictInsert m img.tag img else m)
        m₀) = [] ∨
      ∃ v, (imgs.foldl
        (fun m img =>
          if img.tag ≠ "" ∧ img.tag = cfg.recommendedTag then dictInsert m img.tag img else m)
        m₀) = [(cfg.recommendedTag, v)] ∧ v.tag = cfg.recommendedTag := by
  induction imgs with
  | nil => intro m₀ h; exact h
  | cons img rest ih =>
    intro m₀ h
    rw [List.foldl_cons]
    by_cases hc : img.tag ≠ "" ∧ img.tag = cfg.recommendedTag
    · rw [if_pos hc]
      refine ih _ (Or.inr ⟨img, ?_, hc.2⟩)
      rcases h with rfl | ⟨v, rfl, hv⟩ <;> simp [dictInsert, hc.2]
    · rw [if_neg hc]
      exact ih _ h

theorem recommendedPass_fold_nonempty (cfg : PrepullerCfg) (imgs : List NodeTagImage) :
    ∀ m₀, m₀ ≠ [] →
      (imgs.foldl
        (fun m img =>
          if img.tag ≠ "" ∧ img.tag = cfg.recommendedTag then dictInsert m img.tag img else m)
        m₀) ≠ [] := by
  induction imgs with
  | nil => intro m₀ h; exact h
  | cons img rest ih =>
    intro m₀ h
    rw [List.foldl_cons]
    by_cases hc : img.tag ≠ "" ∧ img.tag = cfg.recommendedTag
    · rw [if_pos hc]
      exact ih _ (dictInsert_ne_nil m₀ img.tag img)
    · rw [if_neg hc]
      exact ih _ h

theorem recommendedPass_of_any (cfg : PrepullerCfg) (imgs : List NodeTagImage) :
    ∀ m₀, (m₀ = [] ∨ ∃ v, m₀ = [(cfg.recommendedTag, v)] ∧ v.tag = cfg.recommendedTag) →
      (imgs.any fun i => i.tag ≠ "" ∧ i.tag = cfg.recommendedTag) = true →
      ∃ v, (imgs.foldl
        (fun m img =>
          if img.tag ≠ "" ∧ img.tag = cfg.recommendedTag then dictInsert m img.tag img else m)
        m₀) = [(cfg.recommendedTag, v)] ∧ v.tag = cfg.recommendedTag := by
  induction imgs with
  | nil =>
    intro m₀ h ha
    simp at ha
  | cons img rest ih =>
    intro m₀ h ha
    rw [List.foldl_cons]
    by_cases hc : img.tag ≠ "" ∧ img.tag = cfg.recommendedTag
    · rw [if_pos hc]
      have hstart : dictInsert m₀ img.tag img = [(cfg.recommendedTag, img)] := by
        rcases h with rfl | ⟨v, rfl, hv⟩ <;> simp [dictInsert, hc.2]
      rw [hstart]
      have hshape := recommendedPass_shape cfg rest [(cfg.recommendedTag, img)]
        (Or.inr ⟨img, rfl, hc.2⟩)
      rcases hshape with hnil | hsome
      · exact absurd hnil
          (recommendedPass_fold_nonempty cfg rest [(cfg.recommendedTag, img)] (by simp))
      · exact hsome
    · rw [if_neg hc]
      refine ih _ h ?_
      rw [List.any_cons] at ha
      rcases Bool.or_eq_true_iff.mp ha with h1 | h1
      · exact absurd (by simpa using h1) hc
      · exact h1

theorem recommendedPass_of_any_false (cfg : PrepullerCfg) (imgs : List NodeTagImage)
    (ha : (imgs.any fun i => i.tag ≠ "" ∧ i.tag = cfg.recommendedTag) = false) :
    ∀ m₀, (imgs.foldl
      (fun m img =>
        if img.tag ≠ "" ∧ img.tag = cfg.recommendedTag then dictInsert m img.tag img else m)
      m₀) = m₀ := by
  induction imgs with
  | nil => intro m₀; rfl
  | cons img rest ih =>
    rw [List.any_cons, Bool.or_eq_false_iff] at ha
    intro m₀
    rw [List.foldl_cons, if_neg (by simpa using ha.1)]
    exact ih ha.2 m₀

/-- C6 amended: every image admitted into the menu without carrying the
recommended tag is preceded, among the menu entries that do not carry the
recommended tag, by strictly fewer images of its own type than the
configured cap for that type (and since types other than release, weekly
and daily have cap 0, no image of any other type can be admitted that
way).  The recommended-tagged entry itself also counts against its type's
running cap in the source, which is why the preceding recommended entry
must be excluded from the count — the original claim fails there. -/
theorem menu_under_caps (cfg : PrepullerCfg) (imgs : List NodeTagImage) (i : Nat)
    (e : String × NodeTagImage) (he : (filterMenu cfg imgs)[i]? = some e)
    (hr : ¬ e.2.tag = cfg.recommendedTag) :
    menuCountT cfg e.2.image_type ((filterMenu cfg imgs).take i) < capOf cfg e.2.image_type := by
  have hpass := recommendedPass_shape cfg imgs [] (Or.inl rfl)
  have hnodup : ((recommendedPass cfg imgs).map Prod.fst).Nodup := by
    unfold recommendedPass
    rcases hpass with hp | ⟨v, hp, hv⟩ <;> rw [hp] <;> simp
  have hcount0 : ∀ T, menuCountT cfg T (recommendedPass cfg imgs) ≤
      min ((fun _ => (0 : Nat)) T) (capOf cfg T) := by
    intro T
    unfold recommendedPass menuCountT
    rcases hpass with hp | ⟨v, hp, hv⟩ <;> rw [hp]
    · simp
    · simp [hv]
  have hglobal : ∀ T, menuCountT cfg T (filterMenu cfg imgs) ≤ capOf cfg T := by
    intro T
    have hb := (fold2_count_bound cfg imgs (fun _ => 0) (recommendedPass cfg imgs)
      hnodup hcount0).2 T
    unfold filterMenu
    exact hb.trans (Nat.min_le_right _ _)
  have hi : i < (filterMenu cfg imgs).length := by
    by_contra hlt
    rw [List.getElem?_eq_none (Nat.le_of_not_lt hlt)] at he
    cases he
  have hgete : (filterMenu cfg imgs)[i] = e := by
    have h0 := List.getElem?_eq_getElem hi
    rw [h0] at he
    exact Option.some_injective _ he
  have hdecomp : filterMenu cfg imgs =
      (filterMenu cfg imgs).take i ++ e :: (filterMenu cfg imgs).drop (i + 1) := by
    have h1 := List.take_append_drop i (filterMenu cfg imgs)
    have h2 : (filterMenu cfg imgs).drop i = e :: (filterMenu cfg imgs).drop (i + 1) := by
      rw [List.drop_eq_getElem_cons hi, hgete]
    rw [h2] at h1
    exact h1.symm
  have hcnt := hglobal e.2.image_type
  rw [hdecomp] at hcnt
  unfold menuCountT at *
  rw [List.countP_append, List.countP_cons] at hcnt
  have hpe : (decide (e.2.image_type = e.2.image_type ∧ e.2.tag ≠ cfg.recommendedTag)) = true := by
    simp [hr]
  rw [hpe] at hcnt
  simp only [if_true, reduceIte] at hcnt
  omega

/-- C6 counterexample: with cap numReleases = 1 and the recommended tag
"rec", the inventory [A (release, tag a), R (release, tag rec)] produces the
menu [rec ↦ R, a ↦ A]: the entry A does not carry the recommended tag, yet
exactly one menu image of its type (the recommended one) precedes it, which
is not strictly fewer than the cap 1 — the claim as stated fails. -/
theorem menu_under_caps_counterexample :
    filterMenu ⟨"rec", 1, 1, 1⟩
        [⟨"p", "A", "dA", "a", [], TagType.release, false⟩,
         ⟨"p", "R", "dR", "rec", [], TagType.release, false⟩] =
      [("rec", ⟨"p", "R", "dR", "rec", [], TagType.release, false⟩),
       ("a", ⟨"p", "A", "dA", "a", [], TagType.release, false⟩)] ∧
    ("a" : String) ≠ "rec" ∧
    (List.countP (fun e => decide (e.2.image_type = TagType.release))
      [(("rec" : String), (⟨"p", "R", "dR", "rec", [], TagType.release, false⟩ : NodeTagImage))])
      = 1 ∧
    ¬ (1 < 1) :=
  ⟨by decide, by decide, by decide, by decide⟩

/-- Witness for C6's amended theorem: in the same scenario, the non-recommended
release A at menu position 1 is preceded by strictly fewer than one
non-recommended release. -/
theorem menu_under_caps_witness :
    (filterMenu ⟨"rec", 1, 1, 1⟩
        [⟨"p", "A", "dA", "a", [], TagType.release, false⟩,
         ⟨"p", "R", "dR", "rec", [], TagType.release, false⟩])[1]? =
      some ("a", ⟨"p", "A", "dA", "a", [], TagType.release, false⟩) ∧
    menuCountT ⟨"rec", 1, 1, 1⟩ TagType.release
        ((filterMenu ⟨"rec", 1, 1, 1⟩
          [⟨"p", "A", "dA", "a", [], TagType.release, false⟩,
           ⟨"p", "R", "dR", "rec", [], TagType.release, false⟩]).take 1) <
      capOf ⟨"rec", 1, 1, 1⟩ TagType.release :=
  ⟨by decide,
    menu_under_caps ⟨"rec", 1, 1, 1⟩
      [⟨"p", "A", "dA", "a", [], TagType.release, false⟩,
       ⟨"p", "R", "dR", "rec", [], TagType.release, false⟩] 1
      ("a", ⟨"p", "A", "dA", "a", [], TagType.release, false⟩) (by decide) (by decide)⟩

theorem menuStep_skip (cfg : PrepullerCfg) (counts : TagType → Nat)
    (m : List (String × NodeTagImage)) (img : NodeTagImage)
    (h : counts img.image_type + 1 > capOf cfg img.image_type) :
    menuStep cfg (counts, m) img =
      (fun t => if t = img.image_type then counts t + 1 else counts t, m) := by
  unfold menuStep
  dsimp only
  have hc : (if img.image_type = img.image_type then counts img.image_type + 1
      else counts img.image_type) > capOf cfg img.image_type := by
    simpa using h
  rw [if_pos hc]

theorem menuStep_insert (cfg : PrepullerCfg) (counts : TagType → Nat)
    (m : List (String × NodeTagImage)) (img : NodeTagImage)
    (h : ¬ counts img.image_type + 1 > capOf cfg img.image_type) (ht : img.tag ≠ "") :
    menuStep cfg (counts, m) img =
      (fun t => if t = img.image_type then counts t + 1 else counts t,
        dictInsert m img.tag img) := by
  unfold menuStep
  dsimp only
  have hc : ¬ (if img.image_type = img.image_type then counts img.image_type + 1
      else counts img.image_type) > capOf cfg img.image_type := by
    simpa using h
  rw [if_neg hc, if_pos ht]

theorem menuStep_noinsert (cfg : PrepullerCfg) (counts : TagType → Nat)
    (m : List (String × NodeTagImage)) (img : NodeTagImage)
    (h : ¬ counts img.image_type + 1 > capOf cfg img.image_type) (ht : ¬ img.tag ≠ "") :
    menuStep cfg (counts, m) img =
      (fun t => if t = img.image_type then counts t + 1 else counts t, m) := by
  unfold menuStep
  dsimp only
  have hc : ¬ (if img.image_type = img.image_type then counts img.image_type + 1
      else counts img.image_type) > capOf cfg img.image_type := by
    simpa using h
  rw [if_neg hc, if_neg ht]

theorem fold2_keys (cfg : PrepullerCfg) (imgs : List NodeTagImage) :
    ∀ (counts : TagType → Nat) (m : List (String × NodeTagImage)),
      ∃ ks, ((imgs.foldl (menuStep cfg) (counts, m)).2).map Prod.fst = m.map Prod.fst ++ ks ∧
        ks.Sublist (imgs.map NodeTagImage.tag) := by
  induction imgs with
  | nil =>
    intro counts m
    exact ⟨[], by simp, List.nil_sublist _⟩
  | cons img rest ih =>
    intro counts m
    rw [List.foldl_cons]
    by_cases hskip : counts img.image_type + 1 > capOf cfg img.image_type
    · rw [menuStep_skip cfg counts m img hskip]
      obtain ⟨ks, h1, h2⟩ := ih _ m
      exact ⟨ks, h1, h2.cons _⟩
    · by_cases htag : img.tag ≠ ""
      · rw [menuStep_insert cfg counts m img hskip htag]
        by_cases hc : (m.any fun e => e.1 = img.tag) = true
        · obtain ⟨ks, h1, h2⟩ := ih _ (dictInsert m img.tag img)
          refine ⟨ks, ?_, h2.cons _⟩
          rw [h1, dictInsert_map_fst, if_pos hc]
        · obtain ⟨ks, h1, h2⟩ := ih _ (dictInsert m img.tag img)
          refine ⟨img.tag :: ks, ?_, h2.cons₂ _⟩
          rw [h1, dictInsert_map_fst, if_neg hc, List.append_assoc]
          rfl
      · rw [menuStep_noinsert cfg counts m img hskip htag]
        obtain ⟨ks, h1, h2⟩ := ih _ m
        exact ⟨ks, h1, h2.cons _⟩

theorem fold2_keytag (cfg : PrepullerCfg) (imgs : List NodeTagImage) :
    ∀ (counts : TagType → Nat) (m : List (String × NodeTagImage)),
      (∀ e ∈ m, e.1 = e.2.tag) →
      ∀ e ∈ (imgs.foldl (menuStep cfg) (counts, m)).2, e.1 = e.2.tag := by
  induction imgs with
  | nil => intro counts m h; exact h
  | cons img rest ih =>
    intro counts m h
    rw [List.foldl_cons]
    by_cases hskip : counts img.image_type + 1 > capOf cfg img.image_type
    · rw [menuStep_skip cfg counts m img hskip]
      exact ih _ m h
    · by_cases htag : img.tag ≠ ""
      · rw [menuStep_insert cfg counts m img hskip htag]
        exact ih _ _ (dictInsert_keytag m img.tag img h rfl)
      · rw [menuStep_noinsert cfg counts m img hskip htag]
        exact ih _ m h

/-- C7 amended: the menu places the recommended-tagged image first when one
exists, and then keeps the remaining admitted images in inventory scan
order (their keys form a subsequence of the inventory's tag sequence): the
second pass walks the inventory once, so releases, weeklies and dailies are
interleaved exactly as the inventory lists them — no type-priority
reordering and no within-type descending sort happens. -/
theorem menu_order (cfg : PrepullerCfg) (imgs : List NodeTagImage) :
    (∀ e ∈ filterMenu cfg imgs, e.1 = e.2.tag) ∧
    ((imgs.any fun i => i.tag ≠ "" ∧ i.tag = cfg.recommendedTag) = true →
      ∃ v rest, filterMenu cfg imgs = (cfg.recommendedTag, v) :: rest ∧
        v.tag = cfg.recommendedTag ∧
        (rest.map Prod.fst).Sublist (imgs.map NodeTagImage.tag)) ∧
    ((imgs.any fun i => i.tag ≠ "" ∧ i.tag = cfg.recommendedTag) = false →
      ((filterMenu cfg imgs).map Prod.fst).Sublist (imgs.map NodeTagImage.tag)) := by
  have hkt : ∀ e ∈ filterMenu cfg imgs, e.1 = e.2.tag := by
    have hpass := recommendedPass_shape cfg imgs [] (Or.inl rfl)
    unfold filterMenu
    refine fold2_keytag cfg imgs _ _ ?_
    intro e he
    rcases hpass with hp | ⟨v, hp, hv⟩
    · have hp' : recommendedPass cfg imgs = [] := hp
      rw [hp'] at he
      cases he
    · have hp' : recommendedPass cfg imgs = [(cfg.recommendedTag, v)] := hp
      rw [hp'] at he
      rcases List.mem_singleton.mp he with rfl
      exact hv.symm
  refine ⟨hkt, ?_, ?_⟩
  · intro ha
    obtain ⟨v, hp, hv⟩ := recommendedPass_of_any cfg imgs [] (Or.inl rfl) ha
    have hp' : recommendedPass cfg imgs = [(cfg.recommendedTag, v)] := hp
    obtain ⟨ks, h1, h2⟩ := fold2_keys cfg imgs (fun _ => 0) (recommendedPass cfg imgs)
    have hkeys : (filterMenu cfg imgs).map Prod.fst = cfg.recommendedTag :: ks := by
      unfold filterMenu
      rw [h1, hp']
      simp
    cases hmenu : filterMenu cfg imgs with
    | nil =>
      rw [hmenu] at hkeys
      cases hkeys
    | cons e₀ rest =>
      rw [hmenu, List.map_cons] at hkeys
      injection hkeys with hk1 hk2
      have htag := hkt e₀ (by rw [hmenu]; exact List.mem_cons_self e₀ rest)
      refine ⟨e₀.2, rest, ?_, ?_, ?_⟩
      · cases e₀ with
        | mk a b =>
          simp only [List.cons.injEq, Prod.mk.injEq]
          refine ⟨⟨by simpa using hk1, trivial⟩, trivial⟩
      · rw [← htag, hk1]
      · rw [hk2]
        exact h2
  · intro ha
    have hp0 : recommendedPass cfg imgs = [] := by
      unfold recommendedPass
      exact recommendedPass_of_any_false cfg imgs ha []
    obtain ⟨ks, h1, h2⟩ := fold2_keys cfg imgs (fun _ => 0) (recommendedPass cfg imgs)
    unfold filterMenu
    rw [h1, hp0]
    simpa using h2

/-- C7 counterexample: with every cap 1 and no recommended image, the
inventory [W (weekly), R (release)] yields the menu [w1 ↦ W, r1 ↦ R]: the
weekly precedes the release, so the menu is not emitted in the claimed
release-weekly-daily priority order — it preserves inventory order. -/
theorem menu_order_counterexample :
    filterMenu ⟨"rec", 1, 1, 1⟩
        [⟨"p", "W", "dW", "w1", [], TagType.weekly, false⟩,
         ⟨"p", "R", "dR", "r1", [], TagType.release, false⟩] =
      [("w1", ⟨"p", "W", "dW", "w1", [], TagType.weekly, false⟩),
       ("r1", ⟨"p", "R", "dR", "r1", [], TagType.release, false⟩)] ∧
    (⟨"p", "W", "dW", "w1", [], TagType.weekly, false⟩ : NodeTagImage).image_type
      = TagType.weekly ∧
    (⟨"p", "R", "dR", "r1", [], TagType.release, false⟩ : NodeTagImage).image_type
      = TagType.release :=
  ⟨by decide, rfl, rfl⟩

/-- C3 amended: the tag parses to type release_candidate with semantic
version 23.0.0, prerelease "rc1" and build "c0020.001.20230513", cycle 20,
and display name "Release Candidate r23.0.0-rc1 (SAL Cycle 0020, Build 001)
[20230513]". -/
theorem rc_tag_parse_result :
    parseTag "r23_0_0_rc1_c0020.001_20230513" =
      { tag := "r23_0_0_rc1_c0020.001_20230513"
        image_type := TagType.release_candidate
        display_name := "Release Candidate r23.0.0-rc1 (SAL Cycle 0020, Build 001) [20230513]"
        semantic_version := some ⟨23, 0, 0, some "rc1", some "c0020.001.20230513"⟩
        cycle := some 20 } := by
  decide

/-! ## Totality and well-foundedness of parse_tag (C10) -/

theorem dropLit_length (l : List Char) :
    ∀ cs r, dropLit l cs = some r → cs.length = l.length + r.length := by
  induction l with
  | nil =>
    intro cs r h
    unfold dropLit at h
    injection h with h
    rw [h]
    simp
  | cons a l ih =>
    intro cs r h
    cases cs with
    | nil => cases h
    | cons c cs' =>
      unfold dropLit at h
      by_cases hc : c = a
      · rw [if_pos hc] at h
        have := ih cs' r h
        simp only [List.length_cons]
        omega
      · rw [if_neg hc] at h
        cases h

theorem tryMatchAll_exp (cs : List Char) (r : List Char)
    (h : tryMatchAll cs = MatchResult.exp r) :
    dropLit ['e', 'x', 'p', '_'] cs = some r := by
  unfold tryMatchAll at h
  repeat' split at h
  any_goals exact MatchResult.noConfusion h
  rename_i heq
  injection h with h1
  rw [heq, h1]

theorem tryMatchAll_exp_length (cs : List Char) (r : List Char)
    (h : tryMatchAll cs = MatchResult.exp r) : cs.length = r.length + 4 := by
  have := dropLit_length ['e', 'x', 'p', '_'] cs r (tryMatchAll_exp cs r h)
  simpa [Nat.add_comm] using this

theorem parseTagStep_exp (t : String) (d : List Char → String) (r : List Char)
    (h : tryMatchAll t.data = MatchResult.exp r) :
    parseTagStep t d = ⟨t, TagType.experimental, d r, none, none⟩ := by
  unfold parseTagStep
  rw [h]

theorem parseTagStep_noMatch (t : String) (d : List Char → String)
    (h : tryMatchAll t.data = MatchResult.noMatch) :
    parseTagStep t d = ⟨t, TagType.unknown, t, none, none⟩ := by
  unfold parseTagStep
  rw [h]

theorem parseTagStep_congr (t : String) (d₁ d₂ : List Char → String)
    (h : ∀ r, tryMatchAll t.data = MatchResult.exp r → d₁ r = d₂ r) :
    parseTagStep t d₁ = parseTagStep t d₂ := by
  unfold parseTagStep
  cases htm : tryMatchAll t.data
  case exp r =>
    dsimp only
    rw [h r htm]
  all_goals rfl

theorem latest_noMatch : tryMatchAll ("latest" : String).data = MatchResult.noMatch := by
  decide

theorem parseTagF_fuel (f : Nat) :
    ∀ (f' : Nat) (s : String), s.length < f → s.length < f' →
      parseTagF f s = parseTagF f' s := by
  induction f with
  | zero =>
    intro f' s h
    exact absurd h (Nat.not_lt_zero _)
  | succ g ih =>
    intro f' s h h'
    cases f' with
    | zero => exact absurd h' (Nat.not_lt_zero _)
    | succ g' =>
      unfold parseTagF
      refine parseTagStep_congr _ _ _ fun r htm => ?_
      have hs : ¬ s = "" := by
        intro hs
        rw [if_pos hs] at htm
        rw [latest_noMatch] at htm
        exact MatchResult.noConfusion htm
      rw [if_neg hs] at htm
      have hlen := tryMatchAll_exp_length _ _ htm
      have hsl : s.length = s.data.length := rfl
      have hrl : (⟨r⟩ : String).length = r.length := rfl
      exact congrArg (fun p => "Experimental " ++ p.display_name)
        (ih g' (⟨r⟩ : String) (by omega) (by omega))

/-- C10: `parse_tag` is total.  An empty tag is first replaced by `latest`.
When no pattern of the ordered regex list matches, the parser falls back to
type unknown with the tag itself as display name.  When the experimental
pattern `exp_<rest>` matches, the result's display name is "Experimental "
followed by the display name of the recursive parse of `<rest>` — a string
exactly four characters shorter, so the recursion is well founded; being a
total Lean function of the input string, the embedded parser returns a tag
on every input and no input makes it raise. -/
theorem parse_tag_total (s : String) :
    (tryMatchAll (if s = "" then "latest" else s).data = MatchResult.noMatch →
      parseTag s = ⟨if s = "" then "latest" else s, TagType.unknown,
        if s = "" then "latest" else s, none, none⟩) ∧
    (∀ r, tryMatchAll (if s = "" then "latest" else s).data = MatchResult.exp r →
      r.length + 4 = (if s = "" then "latest" else s).data.length ∧
      parseTag s = ⟨if s = "" then "latest" else s, TagType.experimental,
        "Experimental " ++ (parseTag (⟨r⟩ : String)).display_name, none, none⟩) := by
  constructor
  · intro h
    unfold parseTag
    simp only [parseTagF]
    exact parseTagStep_noMatch _ _ h
  · intro r htm
    have hlen := tryMatchAll_exp_length _ _ htm
    have hs : ¬ s = "" := by
      intro hs
      rw [if_pos hs, latest_noMatch] at htm
      exact MatchResult.noConfusion htm
    rw [if_neg hs] at htm hlen ⊢
    have hsl : s.length = s.data.length := rfl
    refine ⟨by omega, ?_⟩
    have hrl : (⟨r⟩ : String).length = r.length := rfl
    have h1 : parseTag s =
        ⟨s, TagType.experimental,
          "Experimental " ++ (parseTagF s.length (⟨r⟩ : String)).display_name, none, none⟩ := by
      unfold parseTag
      simp only [parseTagF]
      rw [if_neg hs]
      exact parseTagStep_exp s _ r htm
    rw [h1]
    have h2 : parseTagF s.length (⟨r⟩ : String) = parseTag (⟨r⟩ : String) :=
      parseTagF_fuel s.length ((⟨r⟩ : String).length + 1) (⟨r⟩ : String) (by omega) (by omega)
    rw [h2]

/-- Witness for C10 on the concrete experimental tag `exp_foo` (whose
remainder `foo` parses to unknown) and the unmatched tag `latest`. -/
theorem parse_tag_total_witness :
    (tryMatchAll ("exp_foo" : String).data = MatchResult.exp "foo".data ∧
      parseTag "exp_foo" = ⟨"exp_foo", TagType.experimental,
        "Experimental " ++ (parseTag "foo").display_name, none, none⟩) ∧
    (tryMatchAll ("latest" : String).data = MatchResult.noMatch ∧
      parseTag "latest" = ⟨"latest", TagType.unknown, "latest", none, none⟩) :=
  ⟨⟨by decide,
      (((parse_tag_total "exp_foo").2 "foo".data (by decide)).2)⟩,
   ⟨by decide, (parse_tag_total "latest").1 (by decide)⟩⟩

/-! ## Order properties of the comparison primitives (C8) -/

theorem cmpNat_lt {a b : Nat} (h : a < b) : cmpNat a b = -1 := by
  unfold cmpNat
  rw [if_pos h]

theorem cmpNat_eq {a b : Nat} (h : a = b) : cmpNat a b = 0 := by
  unfold cmpNat
  rw [if_neg (by omega), if_neg (by omega)]

theorem cmpNat_gt {a b : Nat} (h : b < a) : cmpNat a b = 1 := by
  unfold cmpNat
  rw [if_neg (by omega), if_pos h]

theorem cmp2_neg1 (x : Int) : cmp2 (-1) x = -1 := by
  unfold cmp2
  rw [if_pos (by omega)]

theorem cmp2_zero (x : Int) : cmp2 0 x = x := by
  unfold cmp2
  rw [if_neg (by omega)]

theorem cmp2_one (x : Int) : cmp2 1 x = 1 := by
  unfold cmp2
  rw [if_pos (by omega)]

theorem cmpChars_self : ∀ a, cmpChars a a = 0 := by
  intro a
  induction a with
  | nil => rfl
  | cons x xs ih =>
    unfold cmpChars
    rw [if_neg (by omega), if_neg (by omega)]
    exact ih

theorem cmpChars_eq_zero : ∀ a b, cmpChars a b = 0 → a = b := by
  intro a
  induction a with
  | nil =>
    intro b h
    cases b with
    | nil => rfl
    | cons y ys => simp [cmpChars] at h
  | cons x xs ih =>
    intro b h
    cases b with
    | nil => simp [cmpChars] at h
    | cons y ys =>
      unfold cmpChars at h
      by_cases h1 : x.toNat < y.toNat
      · rw [if_pos h1] at h
        omega
      · rw [if_neg h1] at h
        by_cases h2 : y.toNat < x.toNat
        · rw [if_pos h2] at h
          omega
        · rw [if_neg h2] at h
          have hx : x = y :=
            Char.eq_of_val_eq (UInt32.ext (show x.toNat = y.toNat by omega))
          rw [hx, ih ys h]

theorem cmpChars_antisym : ∀ a b, cmpChars a b = -cmpChars b a := by
  intro a
  induction a with
  | nil =>
    intro b
    cases b <;> rfl
  | cons x xs ih =>
    intro b
    cases b with
    | nil => rfl
    | cons y ys =>
      unfold cmpChars
      by_cases h1 : x.toNat < y.toNat
      · rw [if_pos h1, if_neg (by omega), if_pos h1]
      · by_cases h2 : y.toNat < x.toNat
        · rw [if_neg h1, if_pos h2, if_pos h2]
          rfl
        · rw [if_neg h1, if_neg h2, if_neg h2, if_neg h1]
          exact ih ys

theorem cmpChars_trans_nonpos : ∀ a b c, cmpChars a b ≤ 0 → cmpChars b c ≤ 0 →
    cmpChars a c ≤ 0 := by
  intro a
  induction a with
  | nil =>
    intro b c _ _
    cases c <;> simp [cmpChars]
  | cons x xs ih =>
    intro b c h1 h2
    cases b with
    | nil => simp [cmpChars] at h1
    | cons y ys =>
      cases c with
      | nil => simp [cmpChars] at h2
      | cons z zs =>
        unfold cmpChars at h1 h2 ⊢
        by_cases hxy : x.toNat < y.toNat
        · have hyz : y.toNat ≤ z.toNat := by
            by_contra hc
            rw [if_neg (by omega), if_pos (by omega)] at h2
            omega
          rw [if_pos (by omega)]
          omega
        · by_cases hyx : y.toNat < x.toNat
          · rw [if_neg hxy, if_pos hyx] at h1
            omega
          · rw [if_neg hxy, if_neg hyx] at h1
            by_cases hyz : y.toNat < z.toNat
            · rw [if_pos (by omega)]
              omega
            · by_cases hzy : z.toNat < y.toNat
              · rw [if_neg hyz, if_pos hzy] at h2
                omega
              · rw [if_neg hyz, if_neg hzy] at h2
                rw [if_neg (by omega), if_neg (by omega)]
                exact ih ys zs h1 h2

theorem cmpNat_antisym (a b : Nat) : cmpNat a b = -cmpNat b a := by
  unfold cmpNat
  split_ifs <;> omega

theorem cmpPreId_self : ∀ z, cmpPreId z z = 0 := by
  intro z
  cases z with
  | num n => exact cmpNat_eq rfl
  | str s => exact cmpChars_self s

theorem cmpPreId_antisym : ∀ z w, cmpPreId z w = -cmpPreId w z := by
  intro z w
  cases z <;> cases w
  · exact cmpNat_antisym _ _
  · rfl
  · rfl
  · exact cmpChars_antisym _ _

theorem natCmpGo_self (la : Nat) : ∀ l, natCmpGo la la l l = 0 := by
  intro l
  induction l with
  | nil => exact cmpNat_eq rfl
  | cons z zs ih =>
    unfold natCmpGo
    rw [cmpPreId_self, if_neg (by omega)]
    exact ih

theorem natCmp_self (a : List Char) : natCmp a a = 0 := by
  unfold natCmp
  exact natCmpGo_self _ _

theorem natCmpGo_antisym (la lb : Nat) :
    ∀ l1 l2, natCmpGo la lb l1 l2 = -natCmpGo lb la l2 l1 := by
  intro l1
  induction l1 with
  | nil =>
    intro l2
    cases l2 with
    | nil => exact cmpNat_antisym _ _
    | cons y ys => exact cmpNat_antisym _ _
  | cons x xs ih =>
    intro l2
    cases l2 with
    | nil => exact cmpNat_antisym _ _
    | cons y ys =>
      unfold natCmpGo
      rw [cmpPreId_antisym x y]
      by_cases hc : cmpPreId y x = 0
      · rw [hc]
        simp only [neg_zero]
        rw [if_neg (by omega), if_neg (by omega)]
        exact ih ys
      · rw [if_pos (by omega), if_pos (by omega)]

theorem natCmp_antisym (a b : List Char) : natCmp a b = -natCmp b a := by
  unfold natCmp
  exact natCmpGo_antisym _ _ _ _

theorem natCmp_nil : natCmp [] [] = 0 := by decide

theorem preBlock_self (p : Option String) : preBlock p p = 0 := by
  unfold preBlock
  rw [natCmp_self]
  simp

theorem preBlock_antisym (p q : Option String) : preBlock p q = -preBlock q p := by
  unfold preBlock
  rw [natCmp_antisym (preOf p) (preOf q)]
  by_cases h0 : natCmp (preOf q) (preOf p) = 0
  · rw [h0]
    simp
  · rw [if_neg (by omega : ¬ -natCmp (preOf q) (preOf p) = 0), if_neg h0]
    by_cases hp : preOf p = []
    · rw [if_pos hp]
      by_cases hq : preOf q = []
      · exfalso
        rw [hp, hq, natCmp_nil] at h0
        exact h0 rfl
      · rw [if_neg hq, if_pos hp]
        norm_num
    · rw [if_neg hp]
      by_cases hq : preOf q = []
      · rw [if_pos hq, if_pos hq]
      · rw [if_neg hq, if_neg hq, if_neg hp]

theorem preBlock_none : preBlock none none = 0 := by decide

theorem splitDotGo_no_dot : ∀ (rest : List Char) (acc : List Char), '.' ∉ rest →
    splitDot.go acc rest = [acc.reverse ++ rest] := by
  intro rest
  induction rest with
  | nil =>
    intro acc h
    simp [splitDot.go]
  | cons c cs ih =>
    intro acc h
    unfold splitDot.go
    rw [if_neg (fun hc => h (by rw [← hc]; exact List.mem_cons_self c cs)),
      ih (c :: acc) (fun hm => h (List.mem_cons_of_mem c hm))]
    simp

theorem splitDot_single (s : List Char) (h : '.' ∉ s) : splitDot s = [s] := by
  unfold splitDot
  rw [splitDotGo_no_dot s [] h]
  simp

theorem natCmp_single (s1 s2 : List Char) (h1 : '.' ∉ s1) (h2 : '.' ∉ s2)
    (hn1 : ¬ (s1 ≠ [] ∧ s1.all Char.isDigit = true))
    (hn2 : ¬ (s2 ≠ [] ∧ s2.all Char.isDigit = true)) :
    natCmp s1 s2 = cmpChars s1 s2 := by
  unfold natCmp
  rw [splitDot_single s1 h1, splitDot_single s2 h2]
  simp only [List.map_cons, List.map_nil]
  rw [show convertId s1 = PreId.str s1 from by unfold convertId; rw [if_neg hn1],
    show convertId s2 = PreId.str s2 from by unfold convertId; rw [if_neg hn2]]
  unfold natCmpGo
  by_cases hc : cmpChars s1 s2 = 0
  · have hs : cmpPreId (PreId.str s1) (PreId.str s2) = 0 := hc
    rw [hs, if_neg (by omega)]
    unfold natCmpGo
    have he := cmpChars_eq_zero s1 s2 hc
    subst he
    rw [cmpNat_eq rfl, cmpChars_self]
  · have hs : cmpPreId (PreId.str s1) (PreId.str s2) = cmpChars s1 s2 := rfl
    rw [hs, if_pos hc]

theorem preBlock_shaped (p q : String)
    (hp : p.data ≠ [] ∧ '.' ∉ p.data ∧ ¬ (p.data ≠ [] ∧ p.data.all Char.isDigit = true))
    (hq : q.data ≠ [] ∧ '.' ∉ q.data ∧ ¬ (q.data ≠ [] ∧ q.data.all Char.isDigit = true)) :
    preBlock (some p) (some q) = cmpChars p.data q.data := by
  unfold preBlock
  have hpre1 : preOf (some p) = p.data := rfl
  have hpre2 : preOf (some q) = q.data := rfl
  rw [hpre1, hpre2, natCmp_single p.data q.data hp.2.1 hq.2.1 hp.2.2 hq.2.2]
  by_cases hc : cmpChars p.data q.data = 0
  · rw [if_pos hc, hc]
  · rw [if_neg hc, if_neg hp.1, if_neg hq.1]

theorem svCompare_self (v : VersionInfo) : svCompare v v = 0 := by
  unfold svCompare
  rw [cmpNat_eq rfl, cmp2_zero, cmpNat_eq rfl, cmp2_zero, cmpNat_eq rfl, cmp2_zero,
    preBlock_self]

theorem cmp2_cmpNat_neg (a b : Nat) (x y : Int) (h : x = -y) :
    cmp2 (cmpNat a b) x = -cmp2 (cmpNat b a) y := by
  rcases Nat.lt_trichotomy a b with hl | he | hg
  · rw [cmpNat_lt hl, cmpNat_gt hl, cmp2_neg1, cmp2_one]
  · rw [cmpNat_eq he, cmpNat_eq he.symm, cmp2_zero, cmp2_zero, h]
  · rw [cmpNat_gt hg, cmpNat_lt hg, cmp2_one, cmp2_neg1]
    norm_num

theorem svCompare_antisym (v w : VersionInfo) : svCompare v w = -svCompare w v := by
  unfold svCompare
  exact cmp2_cmpNat_neg _ _ _ _
    (cmp2_cmpNat_neg _ _ _ _ (cmp2_cmpNat_neg _ _ _ _ (preBlock_antisym _ _)))

theorem cmp2_cmpNat_trans (a b c : Nat) (x y z : Int)
    (hx : cmp2 (cmpNat a b) x ≤ 0) (hy : cmp2 (cmpNat b c) y ≤ 0)
    (htr : x ≤ 0 → y ≤ 0 → z ≤ 0) :
    cmp2 (cmpNat a c) z ≤ 0 := by
  rcases Nat.lt_trichotomy a b with hl | he | hg
  · have hbc : b ≤ c := by
      rcases Nat.lt_trichotomy b c with h' | h' | h'
      · omega
      · omega
      · rw [cmpNat_gt h', cmp2_one] at hy
        omega
    rw [cmpNat_lt (by omega), cmp2_neg1]
    omega
  · rw [cmpNat_eq he, cmp2_zero] at hx
    rcases Nat.lt_trichotomy b c with h' | h' | h'
    · rw [cmpNat_lt (by omega), cmp2_neg1]
      omega
    · rw [cmpNat_eq h', cmp2_zero] at hy
      rw [cmpNat_eq (by omega), cmp2_zero]
      exact htr hx hy
    · rw [cmpNat_gt h', cmp2_one] at hy
      omega
  · rw [cmpNat_gt hg, cmp2_one] at hx
    omega

theorem svCompare_trans (v w u : VersionInfo)
    (PB : preBlock v.prerelease w.prerelease ≤ 0 → preBlock w.prerelease u.prerelease ≤ 0 →
      preBlock v.prerelease u.prerelease ≤ 0)
    (hvw : svCompare v w ≤ 0) (hwu : svCompare w u ≤ 0) : svCompare v u ≤ 0 := by
  unfold svCompare at *
  refine cmp2_cmpNat_trans _ _ _ _ _ _ hvw hwu fun hx hy => ?_
  refine cmp2_cmpNat_trans _ _ _ _ _ _ hx hy fun hx' hy' => ?_
  exact cmp2_cmpNat_trans _ _ _ _ _ _ hx' hy' PB

theorem takeDigits_all : ∀ cs, ((takeDigits cs).1.all Char.isDigit) = true := by
  intro cs
  induction cs with
  | nil => rfl
  | cons c cs ih =>
    unfold takeDigits
    by_cases hd : c.isDigit = true
    · rw [if_pos hd]
      simp [hd, ih]
    · rw [if_neg hd]
      rfl

theorem digits1_spec (cs d r : List Char) (h : digits1 cs = some (d, r)) :
    d ≠ [] ∧ d.all Char.isDigit = true := by
  unfold digits1 at h
  dsimp only at h
  by_cases hp : (takeDigits cs).1 = []
  · rw [if_pos hp] at h
    cases h
  · rw [if_neg hp] at h
    injection h with h
    constructor
    · rw [h] at hp
      simpa using hp
    · have ha := takeDigits_all cs
      rw [h] at ha
      simpa using ha

theorem rcM_pre (cs : List Char) (g : List Char × List Char × List Char) (pre : List Char)
    (cyc : Option CycleG) (rest : Option (List Char))
    (h : rcM cs = some (g, pre, cyc, rest)) :
    pre ≠ [] ∧ pre.all Char.isDigit = true := by
  unfold rcM at h
  simp only [bind, Option.bind_eq_some, Option.some_inj] at h
  obtain ⟨⟨g1, rem1⟩, h1, h⟩ := h
  obtain ⟨rem2, h2, h⟩ := h
  obtain ⟨⟨pre3, rem3⟩, h3, h⟩ := h
  obtain ⟨⟨cyc4, rest4⟩, h4, h⟩ := h
  obtain ⟨hne, hdig⟩ := digits1_spec _ _ _ h3
  have hpre : pre3 = pre := by
    simp only [pure] at h
    injection h with h
    have h2 := congrArg (fun q => q.2.1) h
    simpa using h2
  rw [← hpre]
  exact ⟨hne, hdig⟩

theorem tryMatchAll_rc_pre (cs : List Char) (maj mnr pat pre : List Char)
    (cyc : Option CycleG) (rest : Option (List Char))
    (h : tryMatchAll cs = MatchResult.rc maj mnr pat pre cyc rest) :
    pre ≠ [] ∧ pre.all Char.isDigit = true := by
  unfold tryMatchAll at h
  repeat' split at h
  any_goals exact MatchResult.noConfusion h
  rename_i heq
  injection h with e1 e2 e3 e4 e5 e6
  subst e4
  exact rcM_pre _ _ _ _ _ heq

theorem parseTagStep_shape (t : String) (d : List Char → String) :
    parsedShape (parseTagStep t d) := by
  unfold parseTagStep
  cases htm : tryMatchAll t.data <;> dsimp only
  case rc maj mnr pat pre cyc rest =>
    obtain ⟨hne, hdig⟩ := tryMatchAll_rc_pre t.data maj mnr pat pre cyc rest htm
    refine ⟨by simp [mkStd], ?_, ?_, ?_⟩
    · intro h
      rcases h with h | h | h <;> simp [mkStd] at h
    · intro _
      exact ⟨_, ⟨pre⟩, rfl, rfl, hne, hdig⟩
    · intro h
      rcases h with h | h <;> simp [mkStd] at h
  case rel maj mnr pat cyc rest =>
    refine ⟨by simp [mkStd], fun _ => ⟨_, rfl, rfl⟩, ?_, ?_⟩
    · intro h
      simp [mkStd] at h
    · intro h
      rcases h with h | h <;> simp [mkStd] at h
  case legacy maj mnr =>
    refine ⟨by simp [mkStd], fun _ => ⟨_, rfl, rfl⟩, ?_, ?_⟩
    · intro h
      simp [mkStd] at h
    · intro h
      rcases h with h | h <;> simp [mkStd] at h
  case weekly year week cyc rest =>
    refine ⟨by simp [mkStd], fun _ => ⟨_, rfl, rfl⟩, ?_, ?_⟩
    · intro h
      simp [mkStd] at h
    · intro h
      rcases h with h | h <;> simp [mkStd] at h
  case daily year month day cyc rest =>
    refine ⟨by simp [mkStd], fun _ => ⟨_, rfl, rfl⟩, ?_, ?_⟩
    · intro h
      simp [mkStd] at h
    · intro h
      rcases h with h | h <;> simp [mkStd] at h
  case exp rest =>
    refine ⟨by simp, ?_, ?_, fun _ => rfl⟩
    · intro h
      rcases h with h | h | h <;> simp at h
    · intro h
      simp at h
  case noMatch =>
    refine ⟨by simp, ?_, ?_, fun _ => rfl⟩
    · intro h
      rcases h with h | h | h <;> simp at h
    · intro h
      simp at h

theorem parseTag_shape (s : String) : parsedShape (parseTag s) := by
  unfold parseTag
  simp only [parseTagF]
  exact parseTagStep_shape _ _

theorem cmpChars_cases : ∀ a b, cmpChars a b = -1 ∨ cmpChars a b = 0 ∨ cmpChars a b = 1 := by
  intro a
  induction a with
  | nil =>
    intro b
    cases b <;> simp [cmpChars]
  | cons x xs ih =>
    intro b
    cases b with
    | nil => simp [cmpChars]
    | cons y ys =>
      unfold cmpChars
      by_cases h1 : x.toNat < y.toNat
      · rw [if_pos h1]
        simp
      · by_cases h2 : y.toNat < x.toNat
        · rw [if_neg h1, if_pos h2]
          simp
        · rw [if_neg h1, if_neg h2]
          exact ih ys

theorem fallback_eq (a b : String) :
    (if a = b then (0 : Int) else if cmpChars a.data b.data = -1 then -1 else 1)
      = cmpChars a.data b.data := by
  by_cases he : a = b
  · rw [if_pos he, he, cmpChars_self]
  · rw [if_neg he]
    rcases cmpChars_cases a.data b.data with hc | hc | hc
    · rw [if_pos hc, hc]
    · exact absurd (String.ext (cmpChars_eq_zero _ _ hc)) he
    · rw [if_neg (by omega), hc]

theorem compare_refl (p : PartialTag) : PartialTag.compare p p = some 0 := by
  unfold PartialTag.compare
  rw [if_neg (fun h => h rfl)]
  cases hs : p.semantic_version
  · simp only [hs]
    simp
  · simp only [hs]
    rw [svCompare_self]

theorem compare_antisym (p q : PartialTag) (h : p.image_type = q.image_type) :
    ∀ x, PartialTag.compare p q = some x → PartialTag.compare q p = some (-x) := by
  intro x hx
  unfold PartialTag.compare at hx ⊢
  rw [if_neg (fun hne => hne h)] at hx
  rw [if_neg (fun hne => hne h.symm)]
  injection hx with hx
  congr 1
  cases hsp : p.semantic_version <;> cases hsq : q.semantic_version <;>
      simp only [hsp, hsq] at hx ⊢
  · rw [fallback_eq] at hx
    rw [fallback_eq, cmpChars_antisym, hx]
  · rw [fallback_eq] at hx
    rw [fallback_eq, cmpChars_antisym, hx]
  · rw [fallback_eq] at hx
    rw [fallback_eq, cmpChars_antisym, hx]
  · rename_i v w
    rw [svCompare_antisym] at hx
    omega

theorem compare_ne (p q : PartialTag) (h : p.image_type ≠ q.image_type) :
    PartialTag.compare p q = none := by
  unfold PartialTag.compare
  rw [if_pos h]

theorem rcShaped (d : String) (hne : d.data ≠ []) (hdig : d.data.all Char.isDigit = true) :
    ("rc" ++ d).data ≠ [] ∧ '.' ∉ ("rc" ++ d).data ∧
      ¬ (("rc" ++ d).data ≠ [] ∧ ("rc" ++ d).data.all Char.isDigit = true) := by
  have hd : ("rc" ++ d).data = 'r' :: 'c' :: d.data := by
    rw [String.data_append]
    rfl
  rw [hd]
  refine ⟨by simp, ?_, ?_⟩
  · intro hm
    simp only [List.mem_cons] at hm
    rcases hm with h | h | hm
    · exact absurd h (by decide)
    · exact absurd h (by decide)
    · rw [List.all_eq_true] at hdig
      have := hdig '.' hm
      simp at this
  · intro hc
    have := hc.2
    rw [List.all_cons] at this
    simp at this

theorem compare_some (p q : PartialTag) (h : p.image_type = q.image_type) :
    ∃ x, PartialTag.compare p q = some x := by
  unfold PartialTag.compare
  rw [if_neg (fun hne => hne h)]
  exact ⟨_, rfl⟩

theorem compare_trans (p q r : PartialTag)
    (hsp : parsedShape p) (hsq : parsedShape q) (hsr : parsedShape r)
    (hpq : p.image_type = q.image_type) (hqr : q.image_type = r.image_type)
    (x y : Int)
    (hx : PartialTag.compare p q = some x) (hy : PartialTag.compare q r = some y)
    (hx0 : x ≤ 0) (hy0 : y ≤ 0) :
    ∃ z, PartialTag.compare p r = some z ∧ z ≤ 0 := by
  obtain ⟨hp1, hp2, hp3, hp4⟩ := hsp
  obtain ⟨hq1, hq2, hq3, hq4⟩ := hsq
  obtain ⟨hr1, hr2, hr3, hr4⟩ := hsr
  unfold PartialTag.compare at hx hy ⊢
  rw [if_neg (fun hne => hne hpq)] at hx
  rw [if_neg (fun hne => hne hqr)] at hy
  rw [if_neg (fun hne => hne (hpq.trans hqr))]
  injection hx with hx
  injection hy with hy
  cases hT : p.image_type
  case release =>
    obtain ⟨v, hv, hvpre⟩ := hp2 (Or.inl hT)
    obtain ⟨w, hw, hwpre⟩ := hq2 (Or.inl (hpq ▸ hT))
    obtain ⟨u, hu, hupre⟩ := hr2 (Or.inl ((hpq.trans hqr) ▸ hT))
    simp only [hv, hw] at hx
    simp only [hw, hu] at hy
    simp only [hv, hu]
    refine ⟨_, rfl, ?_⟩
    refine svCompare_trans v w u (fun _ _ => ?_) (hx ▸ hx0) (hy ▸ hy0)
    rw [hvpre, hupre, preBlock_none]
  case weekly =>
    obtain ⟨v, hv, hvpre⟩ := hp2 (Or.inr (Or.inl hT))
    obtain ⟨w, hw, hwpre⟩ := hq2 (Or.inr (Or.inl (hpq ▸ hT)))
    obtain ⟨u, hu, hupre⟩ := hr2 (Or.inr (Or.inl ((hpq.trans hqr) ▸ hT)))
    simp only [hv, hw] at hx
    simp only [hw, hu] at hy
    simp only [hv, hu]
    refine ⟨_, rfl, ?_⟩
    refine svCompare_trans v w u (fun _ _ => ?_) (hx ▸ hx0) (hy ▸ hy0)
    rw [hvpre, hupre, preBlock_none]
  case daily =>
    obtain ⟨v, hv, hvpre⟩ := hp2 (Or.inr (Or.inr hT))
    obtain ⟨w, hw, hwpre⟩ := hq2 (Or.inr (Or.inr (hpq ▸ hT)))
    obtain ⟨u, hu, hupre⟩ := hr2 (Or.inr (Or.inr ((hpq.trans hqr) ▸ hT)))
    simp only [hv, hw] at hx
    simp only [hw, hu] at hy
    simp only [hv, hu]
    refine ⟨_, rfl, ?_⟩
    refine svCompare_trans v w u (fun _ _ => ?_) (hx ▸ hx0) (hy ▸ hy0)
    rw [hvpre, hupre, preBlock_none]
  case release_candidate =>
    obtain ⟨v, d1, hv, hvpre, hd1ne, hd1dig⟩ := hp3 hT
    obtain ⟨w, d2, hw, hwpre, hd2ne, hd2dig⟩ := hq3 (hpq ▸ hT)
    obtain ⟨u, d3, hu, hupre, hd3ne, hd3dig⟩ := hr3 ((hpq.trans hqr) ▸ hT)
    simp only [hv, hw] at hx
    simp only [hw, hu] at hy
    simp only [hv, hu]
    refine ⟨_, rfl, ?_⟩
    refine svCompare_trans v w u (fun h1 h2 => ?_) (hx ▸ hx0) (hy ▸ hy0)
    rw [hvpre, hwpre,
      preBlock_shaped _ _ (rcShaped d1 hd1ne hd1dig) (rcShaped d2 hd2ne hd2dig)] at h1
    rw [hwpre, hupre,
      preBlock_shaped _ _ (rcShaped d2 hd2ne hd2dig) (rcShaped d3 hd3ne hd3dig)] at h2
    rw [hvpre, hupre,
      preBlock_shaped _ _ (rcShaped d1 hd1ne hd1dig) (rcShaped d3 hd3ne hd3dig)]
    exact cmpChars_trans_nonpos _ _ _ h1 h2
  case experimental =>
    have hvn := hp4 (Or.inl hT)
    have hwn := hq4 (Or.inl (hpq ▸ hT))
    have hun := hr4 (Or.inl ((hpq.trans hqr) ▸ hT))
    simp only [hvn, hwn] at hx
    simp only [hwn, hun] at hy
    simp only [hvn, hun]
    rw [fallback_eq] at hx hy
    rw [fallback_eq]
    exact ⟨_, rfl, cmpChars_trans_nonpos _ _ _ (hx ▸ hx0) (hy ▸ hy0)⟩
  case unknown =>
    have hvn := hp4 (Or.inr hT)
    have hwn := hq4 (Or.inr (hpq ▸ hT))
    have hun := hr4 (Or.inr ((hpq.trans hqr) ▸ hT))
    simp only [hvn, hwn] at hx
    simp only [hwn, hun] at hy
    simp only [hvn, hun]
    rw [fallback_eq] at hx hy
    rw [fallback_eq]
    exact ⟨_, rfl, cmpChars_trans_nonpos _ _ _ (hx ▸ hx0) (hy ▸ hy0)⟩
  case aliasTag =>
    exact absurd hT hp1

/-- C8: restricted to parsed tags (`parse_tag` results) of one image type,
`PartialTag.compare` is a total order: same-type comparison always succeeds,
`compare p p = 0`, `compare p q = -(compare q p)`, comparison results `≤ 0`
compose transitively, and tags of differing types are incomparable
(`compare` raises `IncomparableImageTypesError`, embedded as `none`).
Comparison uses `semver.VersionInfo.compare` when both tags carry a
semantic version and otherwise falls back to a lexicographic comparison of
the raw tag strings. -/
theorem compare_total_order_parsed (a b c : String)
    (hab : (parseTag a).image_type = (parseTag b).image_type)
    (hbc : (parseTag b).image_type = (parseTag c).image_type) :
    PartialTag.compare (parseTag a) (parseTag a) = some 0 ∧
    (∃ x, PartialTag.compare (parseTag a) (parseTag b) = some x) ∧
    (∀ x, PartialTag.compare (parseTag a) (parseTag b) = some x →
      PartialTag.compare (parseTag b) (parseTag a) = some (-x)) ∧
    (∀ x y, PartialTag.compare (parseTag a) (parseTag b) = some x →
      PartialTag.compare (parseTag b) (parseTag c) = some y →
      x ≤ 0 → y ≤ 0 →
      ∃ z, PartialTag.compare (parseTag a) (parseTag c) = some z ∧ z ≤ 0) ∧
    (∀ s t : String, (parseTag s).image_type ≠ (parseTag t).image_type →
      PartialTag.compare (parseTag s) (parseTag t) = none) := by
  exact ⟨compare_refl _, compare_some _ _ hab,
    fun x hx => compare_antisym _ _ hab x hx,
    fun x y hx hy hx0 hy0 => compare_trans _ _ _ (parseTag_shape a) (parseTag_shape b)
      (parseTag_shape c) hab hbc x y hx hy hx0 hy0,
    fun s t h => compare_ne _ _ h⟩

/-- Witness for C8 at three concrete weekly tags. -/
theorem compare_total_order_parsed_witness :
    (parseTag "w_2021_10").image_type = (parseTag "w_2021_20").image_type ∧
    (parseTag "w_2021_20").image_type = (parseTag "w_2021_30").image_type ∧
    PartialTag.compare (parseTag "w_2021_10") (parseTag "w_2021_10") = some 0 := by
  refine ⟨by decide, by decide, ?_⟩
  exact (compare_total_order_parsed "w_2021_10" "w_2021_20" "w_2021_30"
    (by decide) (by decide)).1

end JC
